import Mathlib

set_option linter.unusedVariables false

namespace BcInterp

/-!
Shallow embedding of the bc-like interpreter (absyn.h / absyn.cpp / bc.y).
Numbers are modelled as rationals: every arithmetic step of the source is an
IEEE double operation, and the claims under study concern the checks and the
order of evaluation rather than rounding, so the exact field ℚ with the same
floor function stands in for the doubles.
-/

/-- ArithmeticExpression::OpType in absyn.h. -/
inductive ArithOp where
  | plus | minus | mul | div | mod | pow
deriving DecidableEq, Repr

/-- BooleanExpression::OpType in absyn.h. -/
inductive CmpOp where
  | lt | le | gt | ge | eq | ne | land | lor
deriving DecidableEq, Repr

/-- PrefixOpExpression::OpType / PostfixOpExpression::OpType in absyn.h. -/
inductive IncrOp where
  | incr | decr
deriving DecidableEq, Repr

/-- The expression classes of absyn.h: ConstantExpression, VariableExpression,
PrefixOpExpression, PostfixOpExpression, ArithmeticExpression,
BooleanExpression, NegationExpression (lnot), MinusExpression (neg),
AssignExpression and FunctionCallExpression. -/
inductive Expr where
  | const (c : ℚ)
  | var (x : String)
  | preOp (x : String) (op : IncrOp)
  | postOp (x : String) (op : IncrOp)
  | arith (l r : Expr) (op : ArithOp)
  | cmp (l r : Expr) (op : CmpOp)
  | lnot (e : Expr)
  | neg (e : Expr)
  | assign (x : String) (e : Expr)
  | call (f : String) (args : List Expr)
deriving Repr

/-- The statement classes of absyn.h: ExpressionStatement, IfStatement,
WhileStatement, StatementList (block), BreakStatement, ContinueStatement,
HaltStatement and ReturnStatement. -/
inductive Stmt where
  | exprStmt (e : Expr)
  | ifStmt (cond : Expr) (thenS : Stmt) (elseS : Option Stmt)
  | whileStmt (cond : Expr) (body : Stmt)
  | block (ss : List Stmt)
  | brkStmt
  | contStmt
  | haltStmt
  | retStmt (e : Option Expr)
deriving Repr

/-- AbsExpression::shouldDisplayResult: true for every expression class except
AssignExpression. -/
def Expr.shouldDisplayResult : Expr → Bool
  | .assign _ _ => false
  | _ => true

/-- FunctionDefinition of absyn.h: name, arguments, auto variables, body. -/
structure FunctionDefinition where
  name : String
  params : List String
  autos : List String
  body : List Stmt
deriving Repr

/-- An association list standing in for std::map, with std::map::find. -/
def lookupA {α : Type} : List (String × α) → String → Option α
  | [], _ => none
  | (m, v) :: rest, n => if m = n then some v else lookupA rest n

/-- std::map::operator[] followed by a mutation of the mapped value: the entry
is created (default-constructed) when absent, and it is never erased. -/
def updateA {α : Type} (dflt : α) : List (String × α) → String → (α → α) → List (String × α)
  | [], n, f => [(n, f dflt)]
  | (m, v) :: rest, n, f =>
      if m = n then (m, f v) :: rest else (m, v) :: updateA dflt rest n f

/-- RuntimeContext of absyn.h: the function table, the per-name value stacks
(head of the list is the top of the std::stack) and the call stack. -/
structure RuntimeContext where
  functions : List (String × FunctionDefinition)
  vars : List (String × List ℚ)
  callStack : List FunctionDefinition
deriving Repr

/-- RuntimeContext::getVariable (absyn.cpp lines 154-164): when the map holds
an entry for the name the source returns it->second.top(); std::stack::top on
an empty stack is undefined behaviour, modelled as none. When there is no
entry it returns 0. -/
def RuntimeContext.getVariable (ctx : RuntimeContext) (name : String) : Option ℚ :=
  match lookupA ctx.vars name with
  | some st => st.head?
  | none => some (0 : ℚ)

/-- RuntimeContext::setVariable: push when the stack of the name is empty,
else overwrite its top. -/
def RuntimeContext.setVariable (ctx : RuntimeContext) (name : String) (value : ℚ) :
    RuntimeContext :=
  { ctx with
    vars := updateA [] ctx.vars name fun st =>
      match st with
      | [] => [value]
      | _ :: rest => value :: rest }

/-- RuntimeContext::addVariable: push the value on the stack of the name. -/
def RuntimeContext.addVariable (ctx : RuntimeContext) (name : String) (value : ℚ) :
    RuntimeContext :=
  { ctx with vars := updateA [] ctx.vars name fun st => value :: st }

/-- RuntimeContext::delVariable (absyn.cpp lines 275-278): pop the stack of the
name; the map entry is not erased, so an emptied stack stays in the map. -/
def RuntimeContext.delVariable (ctx : RuntimeContext) (name : String) : RuntimeContext :=
  { ctx with vars := updateA [] ctx.vars name List.tail }

/-- RuntimeContext::getFunctionDefinition. -/
def RuntimeContext.getFunctionDefinition (ctx : RuntimeContext) (name : String) :
    Option FunctionDefinition :=
  lookupA ctx.functions name

/-- Replace the mapped definition when the key exists, else insert it. -/
def updateFn : List (String × FunctionDefinition) → String → FunctionDefinition →
    List (String × FunctionDefinition)
  | [], n, fd => [(n, fd)]
  | (m, g) :: rest, n, fd =>
      if m = n then (m, fd) :: rest else (m, g) :: updateFn rest n fd

/-- RuntimeContext::addFunctionDefinition: last definition of a name wins. -/
def RuntimeContext.addFunctionDefinition (ctx : RuntimeContext) (fd : FunctionDefinition) :
    RuntimeContext :=
  { ctx with functions := updateFn ctx.functions fd.name fd }

/-- The parameter-pushing loop of RuntimeContext::enterFunction: both lists are
walked together while both have elements left. -/
def pushParams : RuntimeContext → List String → List ℚ → RuntimeContext
  | ctx, p :: ps, v :: vs => pushParams (ctx.addVariable p v) ps vs
  | ctx, _, _ => ctx

/-- RuntimeContext::enterFunction (absyn.cpp lines 206-233): push each argument
value on its parameter stack, push 0 for each auto variable, push the function
on the call stack. -/
def RuntimeContext.enterFunction (ctx : RuntimeContext) (fdef : FunctionDefinition)
    (argValues : List ℚ) : RuntimeContext :=
  let ctx1 := pushParams ctx fdef.params argValues
  let ctx2 := fdef.autos.foldl (fun c a => c.addVariable a 0) ctx1
  { ctx2 with callStack := fdef :: ctx2.callStack }

/-- RuntimeContext::exitFunction (absyn.cpp lines 235-255): pop the call stack,
pop each auto variable, then pop each parameter. The source asserts the call
stack is not empty; on an empty call stack the model leaves the context as is. -/
def RuntimeContext.exitFunction (ctx : RuntimeContext) : RuntimeContext :=
  match ctx.callStack with
  | [] => ctx
  | fdef :: rest =>
      let ctx1 := { ctx with callStack := rest }
      let ctx2 := fdef.autos.foldl (fun c a => c.delVariable a) ctx1
      fdef.params.foldl (fun c p => c.delVariable p) ctx2

/-- RuntimeContext::throwError: the current function for the message is the top
of the call stack, or (main) when it is empty. -/
def RuntimeContext.currentFunction (ctx : RuntimeContext) : String :=
  match ctx.callStack with
  | [] => "(main)"
  | fdef :: _ => fdef.name

/-- The message RuntimeContext::throwError builds for a RuntimeException. -/
def RuntimeContext.errorMessage (ctx : RuntimeContext) (errmessage : String) : String :=
  "runtime error in function " ++ ctx.currentFunction ++ ": " ++ errmessage ++ "."

/-- The interpreter state threaded through interpret: the RuntimeContext plus
the values written to the output stream, in order. -/
structure InterpState where
  ctx : RuntimeContext
  out : List ℚ
deriving Repr

/-- How one interpret call ends: a value (the double the source returns), or a
thrown BreakFlowException, ContinueFlowException, HaltFlowException,
ReturnFlowException or RuntimeException. ub marks undefined behaviour of the
source (std::stack::top on an empty stack). -/
inductive Outcome where
  | val (v : ℚ)
  | brk
  | cont
  | halt
  | ret (v : ℚ)
  | err (msg : String)
  | ub
deriving DecidableEq, Repr

/-- Propagate every non-value outcome, as a C++ exception propagates. -/
def bindVal (r : Option (Outcome × InterpState))
    (k : ℚ → InterpState → Option (Outcome × InterpState)) :
    Option (Outcome × InterpState) :=
  match r with
  | some (.val v, s) => k v s
  | other => other

/-- The result of evaluating an argument list: the values in order, or the
propagating abnormal outcome of the argument that threw. -/
inductive ArgsRes where
  | vals (vs : List ℚ) (s : InterpState)
  | abn (o : Outcome) (s : InterpState)
deriving Repr

/-- The switch of ArithmeticExpression::interpret (absyn.cpp lines 512-545),
given the two operand values: division by zero and modulo zero raise, Mod is
lhs - floor(lhs / rhs) * rhs, Pow is pow(lhs, max(0, floor(rhs))). -/
def arithApply (ctx : RuntimeContext) (lhs rhs : ℚ) : ArithOp → Outcome
  | .plus => .val (lhs + rhs)
  | .minus => .val (lhs - rhs)
  | .mul => .val (lhs * rhs)
  | .div =>
      if rhs = 0 then .err (ctx.errorMessage "division by zero")
      else .val (lhs / rhs)
  | .mod =>
      if rhs = 0 then .err (ctx.errorMessage "modulo zero")
      else .val (lhs - (Rat.floor (lhs / rhs) : ℚ) * rhs)
  | .pow => .val (lhs ^ (max 0 (Rat.floor rhs)).toNat)

/-- The switch of BooleanExpression::interpret (absyn.cpp lines 574-609): both
operands have already been evaluated; And and Or combine the comparisons of
each operand with 0. -/
def cmpApply (lhs rhs : ℚ) : CmpOp → ℚ
  | .lt => if lhs < rhs then 1 else 0
  | .le => if lhs ≤ rhs then 1 else 0
  | .gt => if rhs < lhs then 1 else 0
  | .ge => if rhs ≤ lhs then 1 else 0
  | .eq => if lhs = rhs then 1 else 0
  | .ne => if lhs = rhs then 0 else 1
  | .land => if lhs ≠ 0 ∧ rhs ≠ 0 then 1 else 0
  | .lor => if lhs ≠ 0 ∨ rhs ≠ 0 then 1 else 0

/-- How FunctionCallExpression::interpret turns the outcome of the body into
the outcome of the call: fall-through yields 0, a caught ReturnFlowException
yields its value, every other exception is rethrown (after exitFunction). -/
def callOutcome : Outcome → Outcome
  | .val _ => .val 0
  | .ret v => .val v
  | o => o

/-- The try/catch of FunctionCallExpression::interpret around the body: a
caught ReturnFlowException or fall-through yields the return value after
exitFunction; every other exception is rethrown after exitFunction; undefined
behaviour stays undefined. -/
def callReturn : Option (Outcome × InterpState) → Option (Outcome × InterpState)
  | none => none
  | some (.ub, sB) => some (.ub, sB)
  | some (o, sB) => some (callOutcome o, { sB with ctx := sB.ctx.exitFunction })

/-- Propagate every non-value outcome out of an argument list, as a C++
exception leaves the argument loop. -/
def bindValA (r : Option (Outcome × InterpState)) (k : ℚ → InterpState → Option ArgsRes) :
    Option ArgsRes :=
  match r with
  | none => none
  | some (.val v, s) => k v s
  | some (o, s) => some (.abn o s)

/-- After the two checks of FunctionCallExpression::interpret: dispatch on the
result of the argument loop; k receives the argument values and runs the body. -/
def argsThen (r : Option ArgsRes)
    (k : List ℚ → InterpState → Option (Outcome × InterpState)) :
    Option (Outcome × InterpState) :=
  match r with
  | none => none
  | some (.vals vals s1) => k vals s1
  | some (.abn o s1) => some (o, s1)

/-- argumentValues.push_back: put the value of one argument in front of the
values of the remaining ones. -/
def consArg (v : ℚ) : Option ArgsRes → Option ArgsRes
  | none => none
  | some (.vals vs s2) => some (.vals (v :: vs) s2)
  | some (.abn o s2) => some (.abn o s2)

/-- The try/catch of one iteration of WhileStatement::interpret: normal
fall-through and a caught ContinueFlowException both continue with k (which
re-evaluates the condition), a caught BreakFlowException leaves the loop with
value 0, every other exception propagates. -/
def whileStep (r : Option (Outcome × InterpState))
    (k : InterpState → Option (Outcome × InterpState)) : Option (Outcome × InterpState) :=
  match r with
  | none => none
  | some (.val _, s1) => k s1
  | some (.cont, s1) => k s1
  | some (.brk, s1) => some (.val 0, s1)
  | some (o, s1) => some (o, s1)


/-!
The evaluator: the interpret methods of absyn.cpp as one mutual fueled
function. fuel is consumed only where the source can run without bound, on
entering a function body and on each further while iteration; none is the
result when it runs out. Exceptions of the source are the non-val Outcomes,
propagated by bindVal.
-/

mutual

/-- AbsExpression::interpret for every expression class of absyn.cpp. -/
def evalExpr : Nat → InterpState → Expr → Option (Outcome × InterpState)
  | _, s, .const c => some (.val c, s)
  | _, s, .var x =>
      match s.ctx.getVariable x with
      | some v => some (.val v, s)
      | none => some (.ub, s)
  | _, s, .preOp x op =>
      match s.ctx.getVariable x with
      | none => some (.ub, s)
      | some v =>
          let value := match op with
            | .incr => v + 1
            | .decr => v - 1
          some (.val value, { s with ctx := s.ctx.setVariable x value })
  | _, s, .postOp x op =>
      match s.ctx.getVariable x with
      | none => some (.ub, s)
      | some oldvalue =>
          let newvalue := match op with
            | .incr => oldvalue + 1
            | .decr => oldvalue - 1
          some (.val oldvalue, { s with ctx := s.ctx.setVariable x newvalue })
  | fuel, s, .arith l r op =>
      bindVal (evalExpr fuel s l) fun lhs s1 =>
        bindVal (evalExpr fuel s1 r) fun rhs s2 =>
          some (arithApply s2.ctx lhs rhs op, s2)
  | fuel, s, .cmp l r op =>
      bindVal (evalExpr fuel s l) fun lhs s1 =>
        bindVal (evalExpr fuel s1 r) fun rhs s2 =>
          some (.val (cmpApply lhs rhs op), s2)
  | fuel, s, .lnot e =>
      bindVal (evalExpr fuel s e) fun v s1 =>
        some (.val (if v = 0 then 1 else 0), s1)
  | fuel, s, .neg e =>
      bindVal (evalExpr fuel s e) fun v s1 => some (.val (-v), s1)
  | fuel, s, .assign x e =>
      bindVal (evalExpr fuel s e) fun v s1 =>
        some (.val v, { s1 with ctx := s1.ctx.setVariable x v })
  | fuel, s, .call f args =>
      match s.ctx.getFunctionDefinition f with
      | none =>
          some (.err (s.ctx.errorMessage ("function '" ++ f ++ "' not defined")), s)
      | some fdef =>
          if fdef.params.length ≠ args.length then
            some (.err (s.ctx.errorMessage
              ("wrong number of arguments for function '" ++ f ++ "'")), s)
          else
            argsThen (evalArgs fuel s args) fun vals s1 =>
              match fuel with
              | 0 => none
              | fuel1 + 1 =>
                  callReturn (evalStmts fuel1
                    { s1 with ctx := s1.ctx.enterFunction fdef vals } fdef.body)
termination_by fuel s e => (fuel, sizeOf e)

/-- The left-to-right argument loop of FunctionCallExpression::interpret. -/
def evalArgs : Nat → InterpState → List Expr → Option ArgsRes
  | _, s, [] => some (.vals [] s)
  | fuel, s, e :: rest =>
      bindValA (evalExpr fuel s e) fun v s1 =>
        consArg v (evalArgs fuel s1 rest)
termination_by fuel s es => (fuel, sizeOf es)

/-- AbsStatement::interpret for every statement class of absyn.cpp. -/
def evalStmt : Nat → InterpState → Stmt → Option (Outcome × InterpState)
  | fuel, s, .exprStmt e =>
      bindVal (evalExpr fuel s e) fun v s1 =>
        if e.shouldDisplayResult then some (.val 0, { s1 with out := s1.out ++ [v] })
        else some (.val 0, s1)
  | fuel, s, .ifStmt cond thenS elseS =>
      bindVal (evalExpr fuel s cond) fun c s1 =>
        if c ≠ 0 then
          bindVal (evalStmt fuel s1 thenS) fun _ s2 => some (.val 0, s2)
        else
          match elseS with
          | none => some (.val 0, s1)
          | some els =>
              bindVal (evalStmt fuel s1 els) fun _ s2 => some (.val 0, s2)
  | fuel, s, .whileStmt cond body =>
      bindVal (evalExpr fuel s cond) fun c s1 =>
        if c ≠ 0 then evalWhile fuel s1 cond body
        else some (.val 0, s1)
  | fuel, s, .block ss =>
      bindVal (evalStmts fuel s ss) fun _ s1 => some (.val 0, s1)
  | _, s, .brkStmt => some (.brk, s)
  | _, s, .contStmt => some (.cont, s)
  | _, s, .haltStmt => some (.halt, s)
  | _, s, .retStmt none => some (.ret 0, s)
  | fuel, s, .retStmt (some e) =>
      bindVal (evalExpr fuel s e) fun v s1 => some (.ret v, s1)
termination_by fuel s st => (fuel, sizeOf st)

/-- The loop of WhileStatement::interpret (absyn.cpp lines 807-831), entered
with the condition already found non-zero: run the body; a caught
ContinueFlowException and normal fall-through both re-evaluate the condition
and iterate, a caught BreakFlowException leaves the loop, every other
exception propagates. -/
def evalWhile : Nat → InterpState → Expr → Stmt → Option (Outcome × InterpState)
  | fuel, s, cond, body =>
      whileStep (evalStmt fuel s body) fun s1 =>
        bindVal (evalExpr fuel s1 cond) fun c s2 =>
          if c ≠ 0 then
            match fuel with
            | 0 => none
            | fuel1 + 1 => evalWhile fuel1 s2 cond body
          else some (.val 0, s2)
termination_by fuel s cond body => (fuel, sizeOf cond + sizeOf body)
decreasing_by
  all_goals simp_wf
  all_goals first
    | (apply Prod.Lex.left; omega)
    | (apply Prod.Lex.right
       have h1 : 1 ≤ sizeOf cond := by cases cond <;> simp <;> omega
       have h2 : 1 ≤ sizeOf body := by cases body <;> simp <;> omega
       omega)

/-- StatementList::interpret: run each statement in order; an exception
propagates, and the list itself returns 0. -/
def evalStmts : Nat → InterpState → List Stmt → Option (Outcome × InterpState)
  | _, s, [] => some (.val 0, s)
  | fuel, s, st :: rest =>
      bindVal (evalStmt fuel s st) fun _ s1 => evalStmts fuel s1 rest
termination_by fuel s ss => (fuel, sizeOf ss)

end


/-!
The semantic checker of bc.y (class SemanticContext). The parser runs it at
the reductions of break, continue and return: m_while counts the enclosing
while productions of the command (enterWhile fires before the condition,
exitWhile after the body, and a statement can only stand in the body), and
m_inFunction holds inside a define command, whose body starts with the while
counter at 0. The structural rendition checks a finished AST with the
counter and flag each construct would see.
-/

mutual

/-- SemanticContext::checkBreak, checkContinue and checkReturn, applied
structurally: wd is the number of enclosing whiles, inFn whether the
statement stands in a function body. -/
def checkStmt (inFn : Bool) (wd : Nat) : Stmt → Bool
  | .exprStmt _ => true
  | .ifStmt _ t none => checkStmt inFn wd t
  | .ifStmt _ t (some e) => checkStmt inFn wd t && checkStmt inFn wd e
  | .whileStmt _ b => checkStmt inFn (wd + 1) b
  | .block ss => checkStmts inFn wd ss
  | .brkStmt => decide (0 < wd)
  | .contStmt => decide (0 < wd)
  | .haltStmt => true
  | .retStmt _ => inFn

/-- checkStmt over a StatementList. -/
def checkStmts (inFn : Bool) (wd : Nat) : List Stmt → Bool
  | [] => true
  | st :: rest => checkStmt inFn wd st && checkStmts inFn wd rest

end

/-- Every function body the parser installed passed the checker with
m_inFunction set and the while counter at 0 (bc.y: addFunctionDefinition runs
only when no semantic error was detected). -/
def WFst (s : InterpState) : Prop :=
  ∀ f fd, lookupA s.ctx.functions f = some fd → checkStmts true 0 fd.body = true

/-- The parser action for a compound assignment (bc.y lines 258-293): x op= e
is reduced to AssignExpression of x and an ArithmeticExpression whose left
operand is a fresh VariableExpression reading x. -/
def compoundAssign (x : String) (op : ArithOp) (e : Expr) : Expr :=
  .assign x (.arith (.var x) e op)

/-- Reading a variable as the spec words it: top of the stack of x, or 0 when
that stack is empty or absent. -/
def specRead (ctx : RuntimeContext) (x : String) : ℚ :=
  match lookupA ctx.vars x with
  | some (v :: _) => v
  | _ => 0

/-- Modelled from the spec: the order the spec claims for x op= e, namely
evaluate e, read x, combine, store (and return the stored value). -/
def evalCompoundSpecOrder (fuel : Nat) (s : InterpState) (x : String) (op : ArithOp)
    (e : Expr) : Option (Outcome × InterpState) :=
  bindVal (evalExpr fuel s e) fun v s1 =>
    match arithApply s1.ctx (specRead s1.ctx x) v op with
    | .val r => some (.val r, { s1 with ctx := s1.ctx.setVariable x r })
    | o => some (o, s1)

/-- The order in which the desugared tree is actually evaluated: read x,
evaluate e, combine, store (and return the stored value). -/
def evalCompoundCodeOrder (fuel : Nat) (s : InterpState) (x : String) (op : ArithOp)
    (e : Expr) : Option (Outcome × InterpState) :=
  match s.ctx.getVariable x with
  | none => some (.ub, s)
  | some xv =>
      bindVal (evalExpr fuel s e) fun v s1 =>
        match arithApply s1.ctx xv v op with
        | .val r => some (.val r, { s1 with ctx := s1.ctx.setVariable x r })
        | o => some (o, s1)

/-!
The partial-allocation tracker (class MemoryStack of absyn.h, methods in
absyn.cpp lines 27-130). The source emulates, in its own words, a single
stack with multiple pointer types through m_pointerTypes; the model is that
single stack, each allocated fragment carrying a numeric identity. The
reduction actions below are copied from the corresponding productions of
bc.y; newNode is the identity of the node the action allocates with new.
-/

/-- The tracked, not-yet-adopted allocations, top of the stack first. -/
structure MemoryStack where
  ptrs : List Nat
deriving DecidableEq, Repr

/-- MemoryStack::push. -/
def MemoryStack.push (ms : MemoryStack) (p : Nat) : MemoryStack :=
  ⟨p :: ms.ptrs⟩

/-- MemoryStack::pop. -/
def MemoryStack.pop (ms : MemoryStack) : MemoryStack :=
  ⟨ms.ptrs.tail⟩

/-- MemoryStack::pop(int num). -/
def MemoryStack.popN : MemoryStack → Nat → MemoryStack
  | ms, 0 => ms
  | ms, n + 1 => MemoryStack.popN ms.pop n

/-- MemoryStack::popAndPush. -/
def MemoryStack.popAndPush (ms : MemoryStack) (n : Nat) (p : Nat) : MemoryStack :=
  (ms.popN n).push p

/-- bc.y line 235, expression : NUMBER — the new ConstantExpression is pushed. -/
def reduceNumber (ms : MemoryStack) (newNode : Nat) : MemoryStack :=
  ms.push newNode

/-- bc.y line 255, expression : NOT expression — popAndPush(1, the new
NegationExpression). -/
def reduceNot (ms : MemoryStack) (newNode : Nat) : MemoryStack :=
  ms.popAndPush 1 newNode

/-- bc.y line 241, expression : expression PLUS expression — popAndPush(2, the
new ArithmeticExpression). -/
def reducePlus (ms : MemoryStack) (newNode : Nat) : MemoryStack :=
  ms.popAndPush 2 newNode

/-- bc.y line 295, expression : MINUS expression with precedence UMINUS — the
action allocates the MinusExpression but performs no MemoryStack operation at
all. -/
def reduceUnaryMinus (ms : MemoryStack) (newNode : Nat) : MemoryStack :=
  ms

/-!
The command loop of bc.y (production command, lines 154-198): a function
definition command installs its definition; a statement line is interpreted,
a RuntimeException is printed on the error stream and the loop continues, a
HaltFlowException stops the parse. The errs accumulator is the error stream.
An escaping Break, Continue or Return would be an uncaught C++ exception, so
the model gives those runs no result, like exhausted fuel.
-/

/-- One parsed command: a funcdef or a statementline (both free of semantic
errors, since an erroneous command is never executed). -/
inductive Command where
  | cfundef (fd : FunctionDefinition)
  | cstmts (ss : List Stmt)
deriving Repr

/-- The command loop of bc.y. -/
def runCommands : Nat → InterpState → List Command → List String →
    Option (InterpState × List String)
  | _, s, [], errs => some (s, errs)
  | fuel, s, .cfundef fd :: rest, errs =>
      runCommands fuel { s with ctx := s.ctx.addFunctionDefinition fd } rest errs
  | fuel, s, .cstmts ss :: rest, errs =>
      match evalStmts fuel s ss with
      | none => none
      | some (.val _, s1) => runCommands fuel s1 rest errs
      | some (.err m, s1) => runCommands fuel s1 rest (errs ++ [m])
      | some (.halt, s1) => some (s1, errs)
      | some (_, s1) => none


/-- The outcome a completed argument loop stands for: an exception that left
it, or (for values) normal completion. -/
def ArgsRes.outcome : ArgsRes → Outcome
  | .vals _ _ => .val 0
  | .abn o _ => o

/-- The state a completed argument loop ends in. -/
def ArgsRes.state : ArgsRes → InterpState
  | .vals _ s => s
  | .abn _ s => s

/-- What every completed evaluation guarantees between its start state s and
its end state s1: the function table is untouched (nothing in the evaluator
writes it), and short of undefined behaviour the call stack is restored. -/
def StateInv (s s1 : InterpState) (o : Outcome) : Prop :=
  s1.ctx.functions = s.ctx.functions ∧ (o ≠ .ub → s1.ctx.callStack = s.ctx.callStack)

/-- An expression evaluation never surfaces break, continue or return. -/
def ExprOK (o : Outcome) : Prop :=
  o ≠ .brk ∧ o ≠ .cont ∧ ∀ v, o ≠ .ret v

/-- What a checked statement may surface: break and continue only under an
enclosing while, return only inside a function body. -/
def StmtOK (inFn : Bool) (wd : Nat) (o : Outcome) : Prop :=
  (o = .brk → 0 < wd) ∧ (o = .cont → 0 < wd) ∧ ∀ v, o = .ret v → inFn = true

/-- What a while loop may surface: never break or continue (it absorbs those
of its own body), return only inside a function body. -/
def LoopOK (inFn : Bool) (o : Outcome) : Prop :=
  o ≠ .brk ∧ o ≠ .cont ∧ ∀ v, o = .ret v → inFn = true

/-- The stack of values of one name: the mapped std::stack, or the empty
stack when the map has no entry for the name. -/
def varStack (ctx : RuntimeContext) (name : String) : List ℚ :=
  (lookupA ctx.vars name).getD []

/-- The empty interpreter state: no functions, no variables, no active calls,
nothing printed. -/
def sEmpty : InterpState := ⟨⟨[], [], []⟩, []⟩

/-- define f(a) { return a } as the parser stores it. -/
def fdefC1 : FunctionDefinition := ⟨"f", ["a"], [], [.retStmt (some (.var "a"))]⟩

/-- The runtime state holding only the definition of f. -/
def sC1 : InterpState := ⟨⟨[("f", fdefC1)], [], []⟩, []⟩

/-- The state after evaluating f(1) in sC1: the value 1 was printed, and the
entry of a remains in the variable map with an empty stack. -/
def sC1after : InterpState := ⟨⟨[("f", fdefC1)], [("a", [])], []⟩, [1]⟩

/-- define g(p) auto b { return p } as the parser stores it. -/
def fdefC2 : FunctionDefinition := ⟨"g", ["p"], ["b"], [.retStmt (some (.var "p"))]⟩

/-- A state holding g and one outer binding x = 5. -/
def sC2 : InterpState := ⟨⟨[("g", fdefC2)], [("x", [5])], []⟩, []⟩

/-- The state at the end of the body of g(7) called from sC2, before the
unwind: p and b are bound and g is on the call stack. -/
def sC2mid : InterpState :=
  ⟨⟨[("g", fdefC2)], [("x", [5]), ("p", [7]), ("b", [0])], [fdefC2]⟩, []⟩

/-- define h(p, q) { } as the parser stores it. -/
def fdefC5 : FunctionDefinition := ⟨"h", ["p", "q"], [], []⟩

/-- The runtime state holding only the definition of h. -/
def sC5 : InterpState := ⟨⟨[("h", fdefC5)], [], []⟩, []⟩

/-- The state with the single binding y = 7. -/
def sY7 : InterpState := ⟨⟨[], [("y", [7])], []⟩, []⟩

/-- The state with the single binding x = 10. -/
def sX10 : InterpState := ⟨⟨[], [("x", [10])], []⟩, []⟩

/-- The state with the single binding x = 20. -/
def sX20 : InterpState := ⟨⟨[], [("x", [20])], []⟩, []⟩

/-- The empty state after printing 1. -/
def sOne : InterpState := ⟨⟨[], [], []⟩, [1]⟩

/-- The state with x = 1 after printing 1. -/
def sC10end : InterpState := ⟨⟨[], [("x", [1])], []⟩, [1]⟩

/-- Every expression occupies at least one constructor. -/
theorem expr_one_le_sizeOf (e : Expr) : 1 ≤ sizeOf e := by
  cases e <;> simp <;> omega

/-- Every statement occupies at least one constructor. -/
theorem stmt_one_le_sizeOf (st : Stmt) : 1 ≤ sizeOf st := by
  cases st <;> simp <;> omega

/-! Small facts about the context operations. -/

theorem setVariable_functions (ctx : RuntimeContext) (x : String) (v : ℚ) :
    (ctx.setVariable x v).functions = ctx.functions := rfl

theorem setVariable_callStack (ctx : RuntimeContext) (x : String) (v : ℚ) :
    (ctx.setVariable x v).callStack = ctx.callStack := rfl

theorem addVariable_functions (ctx : RuntimeContext) (x : String) (v : ℚ) :
    (ctx.addVariable x v).functions = ctx.functions := rfl

theorem addVariable_callStack (ctx : RuntimeContext) (x : String) (v : ℚ) :
    (ctx.addVariable x v).callStack = ctx.callStack := rfl

theorem delVariable_functions (ctx : RuntimeContext) (x : String) :
    (ctx.delVariable x).functions = ctx.functions := rfl

theorem delVariable_callStack (ctx : RuntimeContext) (x : String) :
    (ctx.delVariable x).callStack = ctx.callStack := rfl

theorem pushParams_functions (ps : List String) (vs : List ℚ) (ctx : RuntimeContext) :
    (pushParams ctx ps vs).functions = ctx.functions := by
  induction ps generalizing ctx vs with
  | nil => simp [pushParams]
  | cons p ps ih =>
      cases vs with
      | nil => simp [pushParams]
      | cons v vs => simpa [pushParams] using ih vs (ctx.addVariable p v)

theorem pushParams_callStack (ps : List String) (vs : List ℚ) (ctx : RuntimeContext) :
    (pushParams ctx ps vs).callStack = ctx.callStack := by
  induction ps generalizing ctx vs with
  | nil => simp [pushParams]
  | cons p ps ih =>
      cases vs with
      | nil => simp [pushParams]
      | cons v vs => simpa [pushParams] using ih vs (ctx.addVariable p v)

theorem foldl_addVariable_functions (l : List String) (ctx : RuntimeContext) :
    (l.foldl (fun c a => c.addVariable a 0) ctx).functions = ctx.functions := by
  induction l generalizing ctx with
  | nil => rfl
  | cons a l ih => simpa using ih (ctx.addVariable a 0)

theorem foldl_addVariable_callStack (l : List String) (ctx : RuntimeContext) :
    (l.foldl (fun c a => c.addVariable a 0) ctx).callStack = ctx.callStack := by
  induction l generalizing ctx with
  | nil => rfl
  | cons a l ih => simpa using ih (ctx.addVariable a 0)

theorem foldl_delVariable_functions (l : List String) (ctx : RuntimeContext) :
    (l.foldl (fun c a => c.delVariable a) ctx).functions = ctx.functions := by
  induction l generalizing ctx with
  | nil => rfl
  | cons a l ih => simpa using ih (ctx.delVariable a)

theorem foldl_delVariable_callStack (l : List String) (ctx : RuntimeContext) :
    (l.foldl (fun c a => c.delVariable a) ctx).callStack = ctx.callStack := by
  induction l generalizing ctx with
  | nil => rfl
  | cons a l ih => simpa using ih (ctx.delVariable a)

theorem enterFunction_functions (ctx : RuntimeContext) (fdef : FunctionDefinition)
    (vals : List ℚ) : (ctx.enterFunction fdef vals).functions = ctx.functions := by
  simp [RuntimeContext.enterFunction, foldl_addVariable_functions, pushParams_functions]

theorem enterFunction_callStack (ctx : RuntimeContext) (fdef : FunctionDefinition)
    (vals : List ℚ) : (ctx.enterFunction fdef vals).callStack = fdef :: ctx.callStack := by
  simp [RuntimeContext.enterFunction, foldl_addVariable_callStack, pushParams_callStack]

theorem exitFunction_functions (ctx : RuntimeContext) :
    ctx.exitFunction.functions = ctx.functions := by
  rcases h : ctx.callStack with _ | ⟨fdef, rest⟩ <;>
    simp [RuntimeContext.exitFunction, h, foldl_delVariable_functions]

theorem exitFunction_callStack (ctx : RuntimeContext) (fdef : FunctionDefinition)
    (rest : List FunctionDefinition) (h : ctx.callStack = fdef :: rest) :
    ctx.exitFunction.callStack = rest := by
  simp [RuntimeContext.exitFunction, h, foldl_delVariable_callStack]

/-! Inversion principles for the outcome-dispatch helpers. -/

theorem bindVal_some {r : Option (Outcome × InterpState)}
    {k : ℚ → InterpState → Option (Outcome × InterpState)} {o : Outcome} {s1 : InterpState}
    (h : bindVal r k = some (o, s1)) :
    (∃ v s2, r = some (.val v, s2) ∧ k v s2 = some (o, s1)) ∨
      (r = some (o, s1) ∧ ∀ v, o ≠ .val v) := by
  rcases r with _ | ⟨o2, s2⟩
  · simp [bindVal] at h
  · rcases o2 with v | _ | _ | _ | v | m | _ <;> simp only [bindVal] at h
    · exact Or.inl ⟨v, s2, rfl, h⟩
    all_goals (rcases h with ⟨rfl, rfl⟩ <;> exact Or.inr ⟨rfl, by intro v hv; cases hv⟩)

theorem bindValA_some {r : Option (Outcome × InterpState)}
    {k : ℚ → InterpState → Option ArgsRes} {res : ArgsRes}
    (h : bindValA r k = some res) :
    (∃ v s2, r = some (.val v, s2) ∧ k v s2 = some res) ∨
      (∃ o s2, r = some (o, s2) ∧ res = .abn o s2 ∧ ∀ v, o ≠ .val v) := by
  rcases r with _ | ⟨o2, s2⟩
  · simp [bindValA] at h
  · rcases o2 with v | _ | _ | _ | v | m | _ <;> simp only [bindValA] at h
    · exact Or.inl ⟨v, s2, rfl, h⟩
    all_goals (cases h; exact Or.inr ⟨_, s2, rfl, rfl, by intro v hv; cases hv⟩)

theorem argsThen_some {r : Option ArgsRes}
    {k : List ℚ → InterpState → Option (Outcome × InterpState)} {o : Outcome}
    {s1 : InterpState} (h : argsThen r k = some (o, s1)) :
    (∃ vals s2, r = some (.vals vals s2) ∧ k vals s2 = some (o, s1)) ∨
      r = some (.abn o s1) := by
  rcases r with _ | (⟨vals, s2⟩ | ⟨o2, s2⟩)
  · simp [argsThen] at h
  · exact Or.inl ⟨vals, s2, rfl, h⟩
  · simp only [argsThen] at h
    rcases h with ⟨rfl, rfl⟩
    exact Or.inr rfl

theorem consArg_some {v : ℚ} {r : Option ArgsRes} {res : ArgsRes}
    (h : consArg v r = some res) :
    (∃ vs s2, r = some (.vals vs s2) ∧ res = .vals (v :: vs) s2) ∨
      (∃ o s2, r = some (.abn o s2) ∧ res = .abn o s2) := by
  rcases r with _ | (⟨vs, s2⟩ | ⟨o2, s2⟩)
  · simp [consArg] at h
  · simp only [consArg, Option.some.injEq] at h
    exact Or.inl ⟨vs, s2, rfl, h.symm⟩
  · simp only [consArg, Option.some.injEq] at h
    exact Or.inr ⟨o2, s2, rfl, h.symm⟩

theorem callReturn_some {r : Option (Outcome × InterpState)} {o : Outcome}
    {s1 : InterpState} (h : callReturn r = some (o, s1)) :
    (r = some (.ub, s1) ∧ o = .ub) ∨
      (∃ oB sB, r = some (oB, sB) ∧ oB ≠ .ub ∧ o = callOutcome oB ∧
        s1 = { sB with ctx := sB.ctx.exitFunction }) := by
  rcases r with _ | ⟨o2, s2⟩
  · simp [callReturn] at h
  · rcases o2 with v | _ | _ | _ | v | m | _ <;> simp only [callReturn] at h <;>
      rcases h with ⟨rfl, rfl⟩
    · exact Or.inr ⟨.val v, s2, rfl, by simp, rfl, rfl⟩
    · exact Or.inr ⟨.brk, s2, rfl, by simp, rfl, rfl⟩
    · exact Or.inr ⟨.cont, s2, rfl, by simp, rfl, rfl⟩
    · exact Or.inr ⟨.halt, s2, rfl, by simp, rfl, rfl⟩
    · exact Or.inr ⟨.ret v, s2, rfl, by simp, rfl, rfl⟩
    · exact Or.inr ⟨.err m, s2, rfl, by simp, rfl, rfl⟩
    · exact Or.inl ⟨rfl, rfl⟩

theorem whileStep_some {r : Option (Outcome × InterpState)}
    {k : InterpState → Option (Outcome × InterpState)} {o : Outcome} {s1 : InterpState}
    (h : whileStep r k = some (o, s1)) :
    (∃ v s2, r = some (.val v, s2) ∧ k s2 = some (o, s1)) ∨
      (∃ s2, r = some (.cont, s2) ∧ k s2 = some (o, s1)) ∨
      (∃ s2, r = some (.brk, s2) ∧ o = .val 0 ∧ s1 = s2) ∨
      (r = some (o, s1) ∧ o ≠ .brk ∧ o ≠ .cont ∧ ∀ v, o ≠ .val v) := by
  rcases r with _ | ⟨o2, s2⟩
  · simp [whileStep] at h
  · rcases o2 with v | _ | _ | _ | v | m | _ <;>
      simp only [whileStep, Option.some.injEq, Prod.mk.injEq] at h
    · exact Or.inl ⟨v, s2, rfl, h⟩
    · rcases h with ⟨rfl, rfl⟩
      exact Or.inr (Or.inr (Or.inl ⟨s2, rfl, rfl, rfl⟩))
    · exact Or.inr (Or.inl ⟨s2, rfl, h⟩)
    · rcases h with ⟨rfl, rfl⟩
      exact Or.inr (Or.inr (Or.inr ⟨rfl, by simp, by simp, by intro v hv; cases hv⟩))
    · rcases h with ⟨rfl, rfl⟩
      exact Or.inr (Or.inr (Or.inr ⟨rfl, by simp, by simp, by intro v hv; cases hv⟩))
    · rcases h with ⟨rfl, rfl⟩
      exact Or.inr (Or.inr (Or.inr ⟨rfl, by simp, by simp, by intro v hv; cases hv⟩))
    · rcases h with ⟨rfl, rfl⟩
      exact Or.inr (Or.inr (Or.inr ⟨rfl, by simp, by simp, by intro v hv; cases hv⟩))


theorem stateInv_refl (s : InterpState) (o : Outcome) : StateInv s s o :=
  ⟨rfl, fun _ => rfl⟩

theorem stateInv_comp {s s2 s1 : InterpState} {o2 o : Outcome}
    (h2 : StateInv s s2 o2) (ho2 : o2 ≠ .ub) (h1 : StateInv s2 s1 o) : StateInv s s1 o :=
  ⟨h1.1.trans h2.1, fun hu => (h1.2 hu).trans (h2.2 ho2)⟩

theorem stateInv_any {s s1 : InterpState} {o2 : Outcome} (h : StateInv s s1 o2)
    (ho : o2 ≠ .ub) (o : Outcome) : StateInv s s1 o :=
  ⟨h.1, fun _ => h.2 ho⟩

theorem stateInv_set (s : InterpState) (x : String) (v : ℚ) (o : Outcome) :
    StateInv s { s with ctx := s.ctx.setVariable x v } o :=
  ⟨setVariable_functions _ _ _, fun _ => setVariable_callStack _ _ _⟩

theorem stateInv_out (s : InterpState) (l : List ℚ) (o : Outcome) :
    StateInv s { s with out := l } o :=
  ⟨rfl, fun _ => rfl⟩

mutual

/-- A completed expression evaluation preserves the function table and, short
of undefined behaviour, the call stack. -/
theorem evalExpr_inv : ∀ (fuel : Nat) (s : InterpState) (e : Expr) (o : Outcome)
    (s1 : InterpState), evalExpr fuel s e = some (o, s1) → StateInv s s1 o
  | fuel, s, .const c, o, s1, h => by
      simp only [evalExpr, Option.some.injEq, Prod.mk.injEq] at h
      rcases h with ⟨rfl, rfl⟩
      exact stateInv_refl _ _
  | fuel, s, .var x, o, s1, h => by
      rcases hg : s.ctx.getVariable x with _ | v <;>
        simp only [evalExpr, hg, Option.some.injEq, Prod.mk.injEq] at h <;>
        rcases h with ⟨rfl, rfl⟩ <;> exact stateInv_refl _ _
  | fuel, s, .preOp x op, o, s1, h => by
      rcases hg : s.ctx.getVariable x with _ | v <;>
        cases op <;>
        simp only [evalExpr, hg, Option.some.injEq, Prod.mk.injEq] at h <;>
        rcases h with ⟨rfl, rfl⟩
      · exact stateInv_refl _ _
      · exact stateInv_refl _ _
      · exact stateInv_set _ _ _ _
      · exact stateInv_set _ _ _ _
  | fuel, s, .postOp x op, o, s1, h => by
      rcases hg : s.ctx.getVariable x with _ | v <;>
        cases op <;>
        simp only [evalExpr, hg, Option.some.injEq, Prod.mk.injEq] at h <;>
        rcases h with ⟨rfl, rfl⟩
      · exact stateInv_refl _ _
      · exact stateInv_refl _ _
      · exact stateInv_set _ _ _ _
      · exact stateInv_set _ _ _ _
  | fuel, s, .arith l r op, o, s1, h => by
      simp only [evalExpr] at h
      rcases bindVal_some h with ⟨lv, sl, hl, h2⟩ | ⟨hl, _⟩
      · have il := evalExpr_inv fuel s l _ _ hl
        rcases bindVal_some h2 with ⟨rv, sr, hr, h3⟩ | ⟨hr, _⟩
        · have ir := evalExpr_inv fuel sl r _ _ hr
          simp only [Option.some.injEq, Prod.mk.injEq] at h3
          rcases h3 with ⟨rfl, rfl⟩
          exact stateInv_any (stateInv_comp il (by simp) ir) (by simp) _
        · exact stateInv_comp il (by simp) (evalExpr_inv fuel sl r _ _ hr)
      · exact evalExpr_inv fuel s l _ _ hl
  | fuel, s, .cmp l r op, o, s1, h => by
      simp only [evalExpr] at h
      rcases bindVal_some h with ⟨lv, sl, hl, h2⟩ | ⟨hl, _⟩
      · have il := evalExpr_inv fuel s l _ _ hl
        rcases bindVal_some h2 with ⟨rv, sr, hr, h3⟩ | ⟨hr, _⟩
        · have ir := evalExpr_inv fuel sl r _ _ hr
          simp only [Option.some.injEq, Prod.mk.injEq] at h3
          rcases h3 with ⟨rfl, rfl⟩
          exact stateInv_any (stateInv_comp il (by simp) ir) (by simp) _
        · exact stateInv_comp il (by simp) (evalExpr_inv fuel sl r _ _ hr)
      · exact evalExpr_inv fuel s l _ _ hl
  | fuel, s, .lnot e1, o, s1, h => by
      simp only [evalExpr] at h
      rcases bindVal_some h with ⟨v, s2, he, h2⟩ | ⟨he, _⟩
      · have ie := evalExpr_inv fuel s e1 _ _ he
        simp only [Option.some.injEq, Prod.mk.injEq] at h2
        rcases h2 with ⟨rfl, rfl⟩
        exact stateInv_any ie (by simp) _
      · exact evalExpr_inv fuel s e1 _ _ he
  | fuel, s, .neg e1, o, s1, h => by
      simp only [evalExpr] at h
      rcases bindVal_some h with ⟨v, s2, he, h2⟩ | ⟨he, _⟩
      · have ie := evalExpr_inv fuel s e1 _ _ he
        simp only [Option.some.injEq, Prod.mk.injEq] at h2
        rcases h2 with ⟨rfl, rfl⟩
        exact stateInv_any ie (by simp) _
      · exact evalExpr_inv fuel s e1 _ _ he
  | fuel, s, .assign x e1, o, s1, h => by
      simp only [evalExpr] at h
      rcases bindVal_some h with ⟨v, s2, he, h2⟩ | ⟨he, _⟩
      · have ie := evalExpr_inv fuel s e1 _ _ he
        simp only [Option.some.injEq, Prod.mk.injEq] at h2
        rcases h2 with ⟨rfl, rfl⟩
        exact stateInv_comp ie (by simp) (stateInv_set _ _ _ _)
      · exact evalExpr_inv fuel s e1 _ _ he
  | fuel, s, .call f args, o, s1, h => by
      rcases hf : s.ctx.getFunctionDefinition f with _ | fdef
      · simp only [evalExpr, hf, Option.some.injEq, Prod.mk.injEq] at h
        rcases h with ⟨rfl, rfl⟩
        exact stateInv_refl _ _
      · simp only [evalExpr, hf] at h
        by_cases ha : fdef.params.length ≠ args.length
        · rw [if_pos ha] at h
          simp only [Option.some.injEq, Prod.mk.injEq] at h
          rcases h with ⟨rfl, rfl⟩
          exact stateInv_refl _ _
        · rw [if_neg ha] at h
          rcases argsThen_some h with ⟨vals, sA, hargs, h2⟩ | habn
          · have ia := evalArgs_inv fuel s args _ hargs
            cases fuel with
            | zero => simp at h2
            | succ fuel1 =>
                simp only at h2
                rcases callReturn_some h2 with ⟨hb, rfl⟩ | ⟨oB, sB, hb, hoB, rfl, rfl⟩
                · have ib := evalStmts_inv fuel1 _ fdef.body _ _ hb
                  refine ⟨?_, fun hu => absurd rfl hu⟩
                  calc s1.ctx.functions
                      = (sA.ctx.enterFunction fdef vals).functions := ib.1
                    _ = sA.ctx.functions := enterFunction_functions _ _ _
                    _ = s.ctx.functions := ia.1
                · have ib := evalStmts_inv fuel1 _ fdef.body _ _ hb
                  constructor
                  · calc sB.ctx.exitFunction.functions
                        = sB.ctx.functions := exitFunction_functions _
                      _ = (sA.ctx.enterFunction fdef vals).functions := ib.1
                      _ = sA.ctx.functions := enterFunction_functions _ _ _
                      _ = s.ctx.functions := ia.1
                  · intro _
                    have hcs : sB.ctx.callStack = fdef :: sA.ctx.callStack := by
                      rw [ib.2 hoB, enterFunction_callStack]
                    calc sB.ctx.exitFunction.callStack
                        = sA.ctx.callStack := exitFunction_callStack _ _ _ hcs
                      _ = s.ctx.callStack := ia.2 (by simp [ArgsRes.outcome])
          · have ia := evalArgs_inv fuel s args _ habn
            exact ia
termination_by fuel s e o s1 h => (fuel, sizeOf e)
decreasing_by
  all_goals simp_wf
  all_goals first
    | (apply Prod.Lex.left; omega)
    | (apply Prod.Lex.right; omega)

/-- A completed argument loop preserves the function table and, short of
undefined behaviour, the call stack. -/
theorem evalArgs_inv : ∀ (fuel : Nat) (s : InterpState) (es : List Expr) (res : ArgsRes),
    evalArgs fuel s es = some res → StateInv s res.state res.outcome
  | fuel, s, [], res, h => by
      simp only [evalArgs, Option.some.injEq] at h
      rcases h with rfl
      exact stateInv_refl _ _
  | fuel, s, e :: rest, res, h => by
      simp only [evalArgs] at h
      rcases bindValA_some h with ⟨v, s2, he, h2⟩ | ⟨o2, s2, he, rfl, _⟩
      · have ie := evalExpr_inv fuel s e _ _ he
        rcases consArg_some h2 with ⟨vs, s3, hrest, rfl⟩ | ⟨o3, s3, hrest, rfl⟩
        · have ir := evalArgs_inv fuel s2 rest _ hrest
          simp only [ArgsRes.state, ArgsRes.outcome] at ir ⊢
          exact stateInv_any (stateInv_comp ie (by simp) ir) (by simp) _
        · have ir := evalArgs_inv fuel s2 rest _ hrest
          simp only [ArgsRes.state, ArgsRes.outcome] at ir ⊢
          exact stateInv_comp ie (by simp) ir
      · have ie := evalExpr_inv fuel s e _ _ he
        simpa [ArgsRes.state, ArgsRes.outcome] using ie
termination_by fuel s es res h => (fuel, sizeOf es)
decreasing_by
  all_goals simp_wf
  all_goals first
    | (apply Prod.Lex.left; omega)
    | (apply Prod.Lex.right; omega)

/-- A completed statement evaluation preserves the function table and, short
of undefined behaviour, the call stack. -/
theorem evalStmt_inv : ∀ (fuel : Nat) (s : InterpState) (st : Stmt) (o : Outcome)
    (s1 : InterpState), evalStmt fuel s st = some (o, s1) → StateInv s s1 o
  | fuel, s, .exprStmt e, o, s1, h => by
      simp only [evalStmt] at h
      rcases bindVal_some h with ⟨v, s2, he, h2⟩ | ⟨he, _⟩
      · have ie := evalExpr_inv fuel s e _ _ he
        by_cases hd : e.shouldDisplayResult
        · rw [if_pos hd] at h2
          simp only [Option.some.injEq, Prod.mk.injEq] at h2
          rcases h2 with ⟨rfl, rfl⟩
          exact stateInv_comp ie (by simp) (stateInv_out _ _ _)
        · rw [if_neg hd] at h2
          simp only [Option.some.injEq, Prod.mk.injEq] at h2
          rcases h2 with ⟨rfl, rfl⟩
          exact stateInv_any ie (by simp) _
      · exact evalExpr_inv fuel s e _ _ he
  | fuel, s, .ifStmt cond thenS none, o, s1, h => by
      simp only [evalStmt] at h
      rcases bindVal_some h with ⟨c, s2, hc, h2⟩ | ⟨hc, _⟩
      · have ic := evalExpr_inv fuel s cond _ _ hc
        by_cases hc0 : c ≠ 0
        · rw [if_pos hc0] at h2
          rcases bindVal_some h2 with ⟨v, s3, ht, h3⟩ | ⟨ht, _⟩
          · have it := evalStmt_inv fuel s2 thenS _ _ ht
            simp only [Option.some.injEq, Prod.mk.injEq] at h3
            rcases h3 with ⟨rfl, rfl⟩
            exact stateInv_any (stateInv_comp ic (by simp) it) (by simp) _
          · exact stateInv_comp ic (by simp) (evalStmt_inv fuel s2 thenS _ _ ht)
        · rw [if_neg hc0] at h2
          simp only [Option.some.injEq, Prod.mk.injEq] at h2
          rcases h2 with ⟨rfl, rfl⟩
          exact stateInv_any ic (by simp) _
      · exact evalExpr_inv fuel s cond _ _ hc
  | fuel, s, .ifStmt cond thenS (some els), o, s1, h => by
      simp only [evalStmt] at h
      rcases bindVal_some h with ⟨c, s2, hc, h2⟩ | ⟨hc, _⟩
      · have ic := evalExpr_inv fuel s cond _ _ hc
        by_cases hc0 : c ≠ 0
        · rw [if_pos hc0] at h2
          rcases bindVal_some h2 with ⟨v, s3, ht, h3⟩ | ⟨ht, _⟩
          · have it := evalStmt_inv fuel s2 thenS _ _ ht
            simp only [Option.some.injEq, Prod.mk.injEq] at h3
            rcases h3 with ⟨rfl, rfl⟩
            exact stateInv_any (stateInv_comp ic (by simp) it) (by simp) _
          · exact stateInv_comp ic (by simp) (evalStmt_inv fuel s2 thenS _ _ ht)
        · rw [if_neg hc0] at h2
          rcases bindVal_some h2 with ⟨v, s3, ht, h3⟩ | ⟨ht, _⟩
          · have it := evalStmt_inv fuel s2 els _ _ ht
            simp only [Option.some.injEq, Prod.mk.injEq] at h3
            rcases h3 with ⟨rfl, rfl⟩
            exact stateInv_any (stateInv_comp ic (by simp) it) (by simp) _
          · exact stateInv_comp ic (by simp) (evalStmt_inv fuel s2 els _ _ ht)
      · exact evalExpr_inv fuel s cond _ _ hc
  | fuel, s, .whileStmt cond body, o, s1, h => by
      simp only [evalStmt] at h
      rcases bindVal_some h with ⟨c, s2, hc, h2⟩ | ⟨hc, _⟩
      · have ic := evalExpr_inv fuel s cond _ _ hc
        by_cases hc0 : c ≠ 0
        · rw [if_pos hc0] at h2
          exact stateInv_comp ic (by simp) (evalWhile_inv fuel s2 cond body _ _ h2)
        · rw [if_neg hc0] at h2
          simp only [Option.some.injEq, Prod.mk.injEq] at h2
          rcases h2 with ⟨rfl, rfl⟩
          exact stateInv_any ic (by simp) _
      · exact evalExpr_inv fuel s cond _ _ hc
  | fuel, s, .block ss, o, s1, h => by
      simp only [evalStmt] at h
      rcases bindVal_some h with ⟨v, s2, hss, h2⟩ | ⟨hss, _⟩
      · have iss := evalStmts_inv fuel s ss _ _ hss
        simp only [Option.some.injEq, Prod.mk.injEq] at h2
        rcases h2 with ⟨rfl, rfl⟩
        exact stateInv_any iss (by simp) _
      · exact evalStmts_inv fuel s ss _ _ hss
  | fuel, s, .brkStmt, o, s1, h => by
      simp only [evalStmt, Option.some.injEq, Prod.mk.injEq] at h
      rcases h with ⟨rfl, rfl⟩
      exact stateInv_refl _ _
  | fuel, s, .contStmt, o, s1, h => by
      simp only [evalStmt, Option.some.injEq, Prod.mk.injEq] at h
      rcases h with ⟨rfl, rfl⟩
      exact stateInv_refl _ _
  | fuel, s, .haltStmt, o, s1, h => by
      simp only [evalStmt, Option.some.injEq, Prod.mk.injEq] at h
      rcases h with ⟨rfl, rfl⟩
      exact stateInv_refl _ _
  | fuel, s, .retStmt none, o, s1, h => by
      simp only [evalStmt, Option.some.injEq, Prod.mk.injEq] at h
      rcases h with ⟨rfl, rfl⟩
      exact stateInv_refl _ _
  | fuel, s, .retStmt (some e), o, s1, h => by
      simp only [evalStmt] at h
      rcases bindVal_some h with ⟨v, s2, he, h2⟩ | ⟨he, _⟩
      · have ie := evalExpr_inv fuel s e _ _ he
        simp only [Option.some.injEq, Prod.mk.injEq] at h2
        rcases h2 with ⟨rfl, rfl⟩
        exact stateInv_any ie (by simp) _
      · exact evalExpr_inv fuel s e _ _ he
termination_by fuel s st o s1 h => (fuel, sizeOf st)
decreasing_by
  all_goals simp_wf
  all_goals first
    | (apply Prod.Lex.left; omega)
    | (apply Prod.Lex.right; omega)
    | (apply Prod.Lex.right
       have h1 := expr_one_le_sizeOf cond
       have h2 := stmt_one_le_sizeOf body
       omega)

/-- A completed while loop preserves the function table and, short of
undefined behaviour, the call stack. -/
theorem evalWhile_inv : ∀ (fuel : Nat) (s : InterpState) (cond : Expr) (body : Stmt)
    (o : Outcome) (s1 : InterpState), evalWhile fuel s cond body = some (o, s1) →
    StateInv s s1 o
  | fuel, s, cond, body, o, s1, h => by
      rw [evalWhile] at h
      rcases whileStep_some h with ⟨v, s2, hb, hk⟩ | ⟨s2, hb, hk⟩ | ⟨s2, hb, rfl, rfl⟩ |
        ⟨hb, _, _, _⟩
      case _ =>
        have ib := evalStmt_inv fuel s body _ _ hb
        rcases bindVal_some hk with ⟨c, s3, hc, hk2⟩ | ⟨hc, _⟩
        · have ic := evalExpr_inv fuel s2 cond _ _ hc
          by_cases hc0 : c ≠ 0
          · rw [if_pos hc0] at hk2
            cases fuel with
            | zero => simp at hk2
            | succ fuel1 =>
                simp only at hk2
                have iw := evalWhile_inv fuel1 s3 cond body _ _ hk2
                exact stateInv_comp (stateInv_comp ib (by simp) ic) (by simp) iw
          · rw [if_neg hc0] at hk2
            simp only [Option.some.injEq, Prod.mk.injEq] at hk2
            rcases hk2 with ⟨rfl, rfl⟩
            exact stateInv_any (stateInv_comp ib (by simp) ic) (by simp) _
        · exact stateInv_comp ib (by simp) (evalExpr_inv fuel s2 cond _ _ hc)
      case _ =>
        have ib := evalStmt_inv fuel s body _ _ hb
        rcases bindVal_some hk with ⟨c, s3, hc, hk2⟩ | ⟨hc, _⟩
        · have ic := evalExpr_inv fuel s2 cond _ _ hc
          by_cases hc0 : c ≠ 0
          · rw [if_pos hc0] at hk2
            cases fuel with
            | zero => simp at hk2
            | succ fuel1 =>
                simp only at hk2
                have iw := evalWhile_inv fuel1 s3 cond body _ _ hk2
                exact stateInv_comp (stateInv_comp ib (by simp) ic) (by simp) iw
          · rw [if_neg hc0] at hk2
            simp only [Option.some.injEq, Prod.mk.injEq] at hk2
            rcases hk2 with ⟨rfl, rfl⟩
            exact stateInv_any (stateInv_comp ib (by simp) ic) (by simp) _
        · exact stateInv_comp ib (by simp) (evalExpr_inv fuel s2 cond _ _ hc)
      case _ =>
        have ib := evalStmt_inv fuel s body _ _ hb
        exact stateInv_any ib (by simp) _
      case _ =>
        exact evalStmt_inv fuel s body _ _ hb
termination_by fuel s cond body o s1 h => (fuel, sizeOf cond + sizeOf body)
decreasing_by
  all_goals simp_wf
  all_goals first
    | (apply Prod.Lex.left; omega)
    | (apply Prod.Lex.right; omega)
    | (apply Prod.Lex.right
       have h1 := expr_one_le_sizeOf cond
       have h2 := stmt_one_le_sizeOf body
       omega)

/-- A completed statement list preserves the function table and, short of
undefined behaviour, the call stack. -/
theorem evalStmts_inv : ∀ (fuel : Nat) (s : InterpState) (ss : List Stmt) (o : Outcome)
    (s1 : InterpState), evalStmts fuel s ss = some (o, s1) → StateInv s s1 o
  | fuel, s, [], o, s1, h => by
      simp only [evalStmts, Option.some.injEq, Prod.mk.injEq] at h
      rcases h with ⟨rfl, rfl⟩
      exact stateInv_refl _ _
  | fuel, s, st :: rest, o, s1, h => by
      simp only [evalStmts] at h
      rcases bindVal_some h with ⟨v, s2, hst, h2⟩ | ⟨hst, _⟩
      · have ist := evalStmt_inv fuel s st _ _ hst
        exact stateInv_comp ist (by simp) (evalStmts_inv fuel s2 rest _ _ h2)
      · exact evalStmt_inv fuel s st _ _ hst
termination_by fuel s ss o s1 h => (fuel, sizeOf ss)
decreasing_by
  all_goals simp_wf
  all_goals first
    | (apply Prod.Lex.left; omega)
    | (apply Prod.Lex.right; omega)

end


theorem stmtOK_of_exprOK {inFn : Bool} {wd : Nat} {o : Outcome} (h : ExprOK o) :
    StmtOK inFn wd o :=
  ⟨fun hb => (h.1 hb).elim, fun hc => (h.2.1 hc).elim, fun v hv => (h.2.2 v hv).elim⟩

theorem loopOK_of_exprOK {inFn : Bool} {o : Outcome} (h : ExprOK o) : LoopOK inFn o :=
  ⟨h.1, h.2.1, fun v hv => (h.2.2 v hv).elim⟩

theorem stmtOK_of_loopOK {inFn : Bool} {wd : Nat} {o : Outcome} (h : LoopOK inFn o) :
    StmtOK inFn wd o :=
  ⟨fun hb => (h.1 hb).elim, fun hc => (h.2.1 hc).elim, h.2.2⟩

theorem exprOK_val (v : ℚ) : ExprOK (.val v) := by
  refine ⟨by simp, by simp, by simp⟩

theorem exprOK_err (m : String) : ExprOK (.err m) := by
  refine ⟨by simp, by simp, by simp⟩

theorem exprOK_ub : ExprOK .ub := by
  refine ⟨by simp, by simp, by simp⟩

theorem arithApply_exprOK (ctx : RuntimeContext) (a b : ℚ) (op : ArithOp) :
    ExprOK (arithApply ctx a b op) := by
  cases op <;> simp only [arithApply] <;> try split
  all_goals first | exact exprOK_val _ | exact exprOK_err _

theorem WFst.of_eq {s s2 : InterpState} (w : WFst s)
    (h : s2.ctx.functions = s.ctx.functions) : WFst s2 := by
  intro f fd hl
  rw [h] at hl
  exact w f fd hl

mutual

/-- Over a context whose stored function bodies all passed the checker, an
expression evaluation never surfaces break, continue or return: a while
absorbs break and continue of its body, a call absorbs return of the body. -/
theorem evalExpr_ck : ∀ (fuel : Nat) (s : InterpState) (e : Expr) (o : Outcome)
    (s1 : InterpState), WFst s → evalExpr fuel s e = some (o, s1) → ExprOK o
  | fuel, s, .const c, o, s1, w, h => by
      simp only [evalExpr, Option.some.injEq, Prod.mk.injEq] at h
      rcases h with ⟨rfl, rfl⟩
      exact exprOK_val _
  | fuel, s, .var x, o, s1, w, h => by
      rcases hg : s.ctx.getVariable x with _ | v <;>
        simp only [evalExpr, hg, Option.some.injEq, Prod.mk.injEq] at h <;>
        rcases h with ⟨rfl, rfl⟩
      · exact exprOK_ub
      · exact exprOK_val _
  | fuel, s, .preOp x op, o, s1, w, h => by
      rcases hg : s.ctx.getVariable x with _ | v <;>
        cases op <;>
        simp only [evalExpr, hg, Option.some.injEq, Prod.mk.injEq] at h <;>
        rcases h with ⟨rfl, rfl⟩
      · exact exprOK_ub
      · exact exprOK_ub
      · exact exprOK_val _
      · exact exprOK_val _
  | fuel, s, .postOp x op, o, s1, w, h => by
      rcases hg : s.ctx.getVariable x with _ | v <;>
        cases op <;>
        simp only [evalExpr, hg, Option.some.injEq, Prod.mk.injEq] at h <;>
        rcases h with ⟨rfl, rfl⟩
      · exact exprOK_ub
      · exact exprOK_ub
      · exact exprOK_val _
      · exact exprOK_val _
  | fuel, s, .arith l r op, o, s1, w, h => by
      simp only [evalExpr] at h
      rcases bindVal_some h with ⟨lv, sl, hl, h2⟩ | ⟨hl, _⟩
      · have wl := w.of_eq (evalExpr_inv fuel s l _ _ hl).1
        rcases bindVal_some h2 with ⟨rv, sr, hr, h3⟩ | ⟨hr, _⟩
        · simp only [Option.some.injEq, Prod.mk.injEq] at h3
          rcases h3 with ⟨rfl, rfl⟩
          exact arithApply_exprOK _ _ _ _
        · exact evalExpr_ck fuel sl r _ _ wl hr
      · exact evalExpr_ck fuel s l _ _ w hl
  | fuel, s, .cmp l r op, o, s1, w, h => by
      simp only [evalExpr] at h
      rcases bindVal_some h with ⟨lv, sl, hl, h2⟩ | ⟨hl, _⟩
      · have wl := w.of_eq (evalExpr_inv fuel s l _ _ hl).1
        rcases bindVal_some h2 with ⟨rv, sr, hr, h3⟩ | ⟨hr, _⟩
        · simp only [Option.some.injEq, Prod.mk.injEq] at h3
          rcases h3 with ⟨rfl, rfl⟩
          exact exprOK_val _
        · exact evalExpr_ck fuel sl r _ _ wl hr
      · exact evalExpr_ck fuel s l _ _ w hl
  | fuel, s, .lnot e1, o, s1, w, h => by
      simp only [evalExpr] at h
      rcases bindVal_some h with ⟨v, s2, he, h2⟩ | ⟨he, _⟩
      · simp only [Option.some.injEq, Prod.mk.injEq] at h2
        rcases h2 with ⟨rfl, rfl⟩
        exact exprOK_val _
      · exact evalExpr_ck fuel s e1 _ _ w he
  | fuel, s, .neg e1, o, s1, w, h => by
      simp only [evalExpr] at h
      rcases bindVal_some h with ⟨v, s2, he, h2⟩ | ⟨he, _⟩
      · simp only [Option.some.injEq, Prod.mk.injEq] at h2
        rcases h2 with ⟨rfl, rfl⟩
        exact exprOK_val _
      · exact evalExpr_ck fuel s e1 _ _ w he
  | fuel, s, .assign x e1, o, s1, w, h => by
      simp only [evalExpr] at h
      rcases bindVal_some h with ⟨v, s2, he, h2⟩ | ⟨he, _⟩
      · simp only [Option.some.injEq, Prod.mk.injEq] at h2
        rcases h2 with ⟨rfl, rfl⟩
        exact exprOK_val _
      · exact evalExpr_ck fuel s e1 _ _ w he
  | fuel, s, .call f args, o, s1, w, h => by
      rcases hf : s.ctx.getFunctionDefinition f with _ | fdef
      · simp only [evalExpr, hf, Option.some.injEq, Prod.mk.injEq] at h
        rcases h with ⟨rfl, rfl⟩
        exact exprOK_err _
      · simp only [evalExpr, hf] at h
        by_cases ha : fdef.params.length ≠ args.length
        · rw [if_pos ha] at h
          simp only [Option.some.injEq, Prod.mk.injEq] at h
          rcases h with ⟨rfl, rfl⟩
          exact exprOK_err _
        · rw [if_neg ha] at h
          rcases argsThen_some h with ⟨vals, sA, hargs, h2⟩ | habn
          · cases fuel with
            | zero => simp at h2
            | succ fuel1 =>
                simp only at h2
                have wA : WFst { sA with ctx := sA.ctx.enterFunction fdef vals } := by
                  have h1 := (evalArgs_inv (fuel1 + 1) s args _ hargs).1
                  simp only [ArgsRes.state] at h1
                  exact w.of_eq ((enterFunction_functions _ _ _).trans h1)
                have hck : checkStmts true 0 fdef.body = true :=
                  w f fdef hf
                rcases callReturn_some h2 with ⟨hb, rfl⟩ | ⟨oB, sB, hb, hoB, rfl, rfl⟩
                · exact exprOK_ub
                · have sOK := evalStmts_ck fuel1 _ fdef.body _ _ true 0 wA hck hb
                  cases oB with
                  | val v => exact exprOK_val _
                  | brk => exact absurd (sOK.1 rfl) (by omega)
                  | cont => exact absurd (sOK.2.1 rfl) (by omega)
                  | halt => exact ⟨by simp [callOutcome], by simp [callOutcome],
                      by simp [callOutcome]⟩
                  | ret v => exact exprOK_val _
                  | err m => exact ⟨by simp [callOutcome], by simp [callOutcome],
                      by simp [callOutcome]⟩
                  | ub => exact absurd rfl hoB
          · have ia := evalArgs_ck fuel s args _ w habn
            simpa [ArgsRes.outcome] using ia
termination_by fuel s e o s1 w h => (fuel, sizeOf e)
decreasing_by
  all_goals simp_wf
  all_goals first
    | (apply Prod.Lex.left; omega)
    | (apply Prod.Lex.right; omega)

/-- Over a well-formed context an argument loop never surfaces break,
continue or return. -/
theorem evalArgs_ck : ∀ (fuel : Nat) (s : InterpState) (es : List Expr) (res : ArgsRes),
    WFst s → evalArgs fuel s es = some res → ExprOK res.outcome
  | fuel, s, [], res, w, h => by
      simp only [evalArgs, Option.some.injEq] at h
      rcases h with rfl
      exact exprOK_val _
  | fuel, s, e :: rest, res, w, h => by
      simp only [evalArgs] at h
      rcases bindValA_some h with ⟨v, s2, he, h2⟩ | ⟨o2, s2, he, rfl, _⟩
      · have w2 := w.of_eq (evalExpr_inv fuel s e _ _ he).1
        rcases consArg_some h2 with ⟨vs, s3, hrest, rfl⟩ | ⟨o3, s3, hrest, rfl⟩
        · simp only [ArgsRes.outcome]
          exact exprOK_val _
        · have ir := evalArgs_ck fuel s2 rest _ w2 hrest
          simpa [ArgsRes.outcome] using ir
      · have ie := evalExpr_ck fuel s e _ _ w he
        simpa [ArgsRes.outcome] using ie
termination_by fuel s es res w h => (fuel, sizeOf es)
decreasing_by
  all_goals simp_wf
  all_goals first
    | (apply Prod.Lex.left; omega)
    | (apply Prod.Lex.right; omega)

/-- Over a well-formed context, a statement that passed the checker with
counter wd and flag inFn surfaces break or continue only when wd is positive
and return only when inFn holds. -/
theorem evalStmt_ck : ∀ (fuel : Nat) (s : InterpState) (st : Stmt) (o : Outcome)
    (s1 : InterpState) (inFn : Bool) (wd : Nat), WFst s → checkStmt inFn wd st = true →
    evalStmt fuel s st = some (o, s1) → StmtOK inFn wd o
  | fuel, s, .exprStmt e, o, s1, inFn, wd, w, ck, h => by
      simp only [evalStmt] at h
      rcases bindVal_some h with ⟨v, s2, he, h2⟩ | ⟨he, _⟩
      · split at h2
        · simp only [Option.some.injEq, Prod.mk.injEq] at h2
          rcases h2 with ⟨rfl, rfl⟩
          exact stmtOK_of_exprOK (exprOK_val _)
        · simp only [Option.some.injEq, Prod.mk.injEq] at h2
          rcases h2 with ⟨rfl, rfl⟩
          exact stmtOK_of_exprOK (exprOK_val _)
      · exact stmtOK_of_exprOK (evalExpr_ck fuel s e _ _ w he)
  | fuel, s, .ifStmt cond thenS none, o, s1, inFn, wd, w, ck, h => by
      simp only [checkStmt] at ck
      simp only [evalStmt] at h
      rcases bindVal_some h with ⟨c, s2, hc, h2⟩ | ⟨hc, _⟩
      · have w2 := w.of_eq (evalExpr_inv fuel s cond _ _ hc).1
        by_cases hc0 : c ≠ 0
        · rw [if_pos hc0] at h2
          rcases bindVal_some h2 with ⟨v, s3, ht, h3⟩ | ⟨ht, _⟩
          · simp only [Option.some.injEq, Prod.mk.injEq] at h3
            rcases h3 with ⟨rfl, rfl⟩
            exact stmtOK_of_exprOK (exprOK_val _)
          · exact evalStmt_ck fuel s2 thenS _ _ inFn wd w2 ck ht
        · rw [if_neg hc0] at h2
          simp only [Option.some.injEq, Prod.mk.injEq] at h2
          rcases h2 with ⟨rfl, rfl⟩
          exact stmtOK_of_exprOK (exprOK_val _)
      · exact stmtOK_of_exprOK (evalExpr_ck fuel s cond _ _ w hc)
  | fuel, s, .ifStmt cond thenS (some els), o, s1, inFn, wd, w, ck, h => by
      simp only [checkStmt, Bool.and_eq_true] at ck
      simp only [evalStmt] at h
      rcases bindVal_some h with ⟨c, s2, hc, h2⟩ | ⟨hc, _⟩
      · have w2 := w.of_eq (evalExpr_inv fuel s cond _ _ hc).1
        by_cases hc0 : c ≠ 0
        · rw [if_pos hc0] at h2
          rcases bindVal_some h2 with ⟨v, s3, ht, h3⟩ | ⟨ht, _⟩
          · simp only [Option.some.injEq, Prod.mk.injEq] at h3
            rcases h3 with ⟨rfl, rfl⟩
            exact stmtOK_of_exprOK (exprOK_val _)
          · exact evalStmt_ck fuel s2 thenS _ _ inFn wd w2 ck.1 ht
        · rw [if_neg hc0] at h2
          rcases bindVal_some h2 with ⟨v, s3, ht, h3⟩ | ⟨ht, _⟩
          · simp only [Option.some.injEq, Prod.mk.injEq] at h3
            rcases h3 with ⟨rfl, rfl⟩
            exact stmtOK_of_exprOK (exprOK_val _)
          · exact evalStmt_ck fuel s2 els _ _ inFn wd w2 ck.2 ht
      · exact stmtOK_of_exprOK (evalExpr_ck fuel s cond _ _ w hc)
  | fuel, s, .whileStmt cond body, o, s1, inFn, wd, w, ck, h => by
      simp only [checkStmt] at ck
      simp only [evalStmt] at h
      rcases bindVal_some h with ⟨c, s2, hc, h2⟩ | ⟨hc, _⟩
      · have w2 := w.of_eq (evalExpr_inv fuel s cond _ _ hc).1
        by_cases hc0 : c ≠ 0
        · rw [if_pos hc0] at h2
          exact stmtOK_of_loopOK (evalWhile_ck fuel s2 cond body _ _ inFn (wd + 1) w2 ck h2)
        · rw [if_neg hc0] at h2
          simp only [Option.some.injEq, Prod.mk.injEq] at h2
          rcases h2 with ⟨rfl, rfl⟩
          exact stmtOK_of_exprOK (exprOK_val _)
      · exact stmtOK_of_exprOK (evalExpr_ck fuel s cond _ _ w hc)
  | fuel, s, .block ss, o, s1, inFn, wd, w, ck, h => by
      simp only [checkStmt] at ck
      simp only [evalStmt] at h
      rcases bindVal_some h with ⟨v, s2, hss, h2⟩ | ⟨hss, _⟩
      · simp only [Option.some.injEq, Prod.mk.injEq] at h2
        rcases h2 with ⟨rfl, rfl⟩
        exact stmtOK_of_exprOK (exprOK_val _)
      · exact evalStmts_ck fuel s ss _ _ inFn wd w ck hss
  | fuel, s, .brkStmt, o, s1, inFn, wd, w, ck, h => by
      simp only [checkStmt, decide_eq_true_eq] at ck
      simp only [evalStmt, Option.some.injEq, Prod.mk.injEq] at h
      rcases h with ⟨rfl, rfl⟩
      refine ⟨fun _ => ck, ?_, ?_⟩
      · intro hc; cases hc
      · intro v hv; cases hv
  | fuel, s, .contStmt, o, s1, inFn, wd, w, ck, h => by
      simp only [checkStmt, decide_eq_true_eq] at ck
      simp only [evalStmt, Option.some.injEq, Prod.mk.injEq] at h
      rcases h with ⟨rfl, rfl⟩
      refine ⟨?_, fun _ => ck, ?_⟩
      · intro hb; cases hb
      · intro v hv; cases hv
  | fuel, s, .haltStmt, o, s1, inFn, wd, w, ck, h => by
      simp only [evalStmt, Option.some.injEq, Prod.mk.injEq] at h
      rcases h with ⟨rfl, rfl⟩
      refine ⟨?_, ?_, ?_⟩
      · intro hb; cases hb
      · intro hc; cases hc
      · intro v hv; cases hv
  | fuel, s, .retStmt none, o, s1, inFn, wd, w, ck, h => by
      simp only [checkStmt] at ck
      simp only [evalStmt, Option.some.injEq, Prod.mk.injEq] at h
      rcases h with ⟨rfl, rfl⟩
      refine ⟨?_, ?_, fun v _ => ck⟩
      · intro hb; cases hb
      · intro hc; cases hc
  | fuel, s, .retStmt (some e), o, s1, inFn, wd, w, ck, h => by
      simp only [checkStmt] at ck
      simp only [evalStmt] at h
      rcases bindVal_some h with ⟨v, s2, he, h2⟩ | ⟨he, _⟩
      · simp only [Option.some.injEq, Prod.mk.injEq] at h2
        rcases h2 with ⟨rfl, rfl⟩
        refine ⟨?_, ?_, fun v _ => ck⟩
        · intro hb; cases hb
        · intro hc; cases hc
      · exact stmtOK_of_exprOK (evalExpr_ck fuel s e _ _ w he)
termination_by fuel s st o s1 inFn wd w ck h => (fuel, sizeOf st)
decreasing_by
  all_goals simp_wf
  all_goals first
    | (apply Prod.Lex.left; omega)
    | (apply Prod.Lex.right; omega)
    | (apply Prod.Lex.right
       have h1 := expr_one_le_sizeOf cond
       have h2 := stmt_one_le_sizeOf body
       omega)

/-- Over a well-formed context, a while loop whose body passed the checker
never surfaces break or continue, and surfaces return only inside a function
body. -/
theorem evalWhile_ck : ∀ (fuel : Nat) (s : InterpState) (cond : Expr) (body : Stmt)
    (o : Outcome) (s1 : InterpState) (inFn : Bool) (wd : Nat), WFst s →
    checkStmt inFn wd body = true → evalWhile fuel s cond body = some (o, s1) →
    LoopOK inFn o
  | fuel, s, cond, body, o, s1, inFn, wd, w, ck, h => by
      rw [evalWhile] at h
      rcases whileStep_some h with ⟨v, s2, hb, hk⟩ | ⟨s2, hb, hk⟩ | ⟨s2, hb, rfl, rfl⟩ |
        ⟨hb, hnb, hnc, hnv⟩
      case _ =>
        have w2 := w.of_eq (evalStmt_inv fuel s body _ _ hb).1
        rcases bindVal_some hk with ⟨c, s3, hc, hk2⟩ | ⟨hc, _⟩
        · have w3 := w2.of_eq (evalExpr_inv fuel s2 cond _ _ hc).1
          by_cases hc0 : c ≠ 0
          · rw [if_pos hc0] at hk2
            cases fuel with
            | zero => simp at hk2
            | succ fuel1 =>
                simp only at hk2
                exact evalWhile_ck fuel1 s3 cond body _ _ inFn wd w3 ck hk2
          · rw [if_neg hc0] at hk2
            simp only [Option.some.injEq, Prod.mk.injEq] at hk2
            rcases hk2 with ⟨rfl, rfl⟩
            exact loopOK_of_exprOK (exprOK_val _)
        · exact loopOK_of_exprOK (evalExpr_ck fuel s2 cond _ _ w2 hc)
      case _ =>
        have w2 := w.of_eq (evalStmt_inv fuel s body _ _ hb).1
        rcases bindVal_some hk with ⟨c, s3, hc, hk2⟩ | ⟨hc, _⟩
        · have w3 := w2.of_eq (evalExpr_inv fuel s2 cond _ _ hc).1
          by_cases hc0 : c ≠ 0
          · rw [if_pos hc0] at hk2
            cases fuel with
            | zero => simp at hk2
            | succ fuel1 =>
                simp only at hk2
                exact evalWhile_ck fuel1 s3 cond body _ _ inFn wd w3 ck hk2
          · rw [if_neg hc0] at hk2
            simp only [Option.some.injEq, Prod.mk.injEq] at hk2
            rcases hk2 with ⟨rfl, rfl⟩
            exact loopOK_of_exprOK (exprOK_val _)
        · exact loopOK_of_exprOK (evalExpr_ck fuel s2 cond _ _ w2 hc)
      case _ =>
        exact loopOK_of_exprOK (exprOK_val _)
      case _ =>
        have sOK := evalStmt_ck fuel s body _ _ inFn wd w ck hb
        exact ⟨hnb, hnc, sOK.2.2⟩
termination_by fuel s cond body o s1 inFn wd w ck h => (fuel, sizeOf cond + sizeOf body)
decreasing_by
  all_goals simp_wf
  all_goals first
    | (apply Prod.Lex.left; omega)
    | (apply Prod.Lex.right; omega)
    | (apply Prod.Lex.right
       have h1 := expr_one_le_sizeOf cond
       have h2 := stmt_one_le_sizeOf body
       omega)

/-- Over a well-formed context, a statement list that passed the checker
surfaces break or continue only under an enclosing while, return only inside
a function body. -/
theorem evalStmts_ck : ∀ (fuel : Nat) (s : InterpState) (ss : List Stmt) (o : Outcome)
    (s1 : InterpState) (inFn : Bool) (wd : Nat), WFst s → checkStmts inFn wd ss = true →
    evalStmts fuel s ss = some (o, s1) → StmtOK inFn wd o
  | fuel, s, [], o, s1, inFn, wd, w, ck, h => by
      simp only [evalStmts, Option.some.injEq, Prod.mk.injEq] at h
      rcases h with ⟨rfl, rfl⟩
      exact stmtOK_of_exprOK (exprOK_val _)
  | fuel, s, st :: rest, o, s1, inFn, wd, w, ck, h => by
      simp only [checkStmts, Bool.and_eq_true] at ck
      simp only [evalStmts] at h
      rcases bindVal_some h with ⟨v, s2, hst, h2⟩ | ⟨hst, _⟩
      · have w2 := w.of_eq (evalStmt_inv fuel s st _ _ hst).1
        exact evalStmts_ck fuel s2 rest _ _ inFn wd w2 ck.2 h2
      · exact evalStmt_ck fuel s st _ _ inFn wd w ck.1 hst
termination_by fuel s ss o s1 inFn wd w ck h => (fuel, sizeOf ss)
decreasing_by
  all_goals simp_wf
  all_goals first
    | (apply Prod.Lex.left; omega)
    | (apply Prod.Lex.right; omega)

end


/-! The effect of one map update, and of exitFunction, on each per-name
stack. -/

theorem lookupA_updateA {α : Type} (dflt : α) (l : List (String × α)) (n m : String)
    (f : α → α) :
    lookupA (updateA dflt l n f) m =
      if m = n then some (f ((lookupA l n).getD dflt)) else lookupA l m := by
  induction l with
  | nil =>
      rcases eq_or_ne m n with rfl | h
      · simp [updateA, lookupA]
      · simp [updateA, lookupA, h, Ne.symm h]
  | cons p rest ih =>
      obtain ⟨pk, pv⟩ := p
      rcases eq_or_ne pk n with rfl | hk
      · rcases eq_or_ne m pk with rfl | hm
        · simp [updateA, lookupA]
        · simp [updateA, lookupA, hm, Ne.symm hm]
      · rcases eq_or_ne m pk with rfl | hm
        · simp [updateA, lookupA, hk, Ne.symm hk]
        · simp [updateA, lookupA, hk, hm, Ne.symm hm, ih]

theorem varStack_delVariable (ctx : RuntimeContext) (a m : String) :
    varStack (ctx.delVariable a) m =
      if m = a then (varStack ctx a).tail else varStack ctx m := by
  unfold varStack RuntimeContext.delVariable
  simp only [lookupA_updateA]
  by_cases h : m = a <;> simp [h]

theorem varStack_foldl_del (l : List String) (ctx : RuntimeContext) (m : String)
    (hnd : l.Nodup) :
    varStack (l.foldl (fun c a => c.delVariable a) ctx) m =
      if m ∈ l then (varStack ctx m).tail else varStack ctx m := by
  induction l generalizing ctx with
  | nil => simp
  | cons a rest ih =>
      rcases List.nodup_cons.mp hnd with ⟨ha, hrest⟩
      simp only [List.foldl_cons]
      rw [ih (ctx.delVariable a) hrest]
      by_cases hm : m ∈ rest
      · have hma : m ≠ a := fun h => ha (h ▸ hm)
        simp [hm, hma, varStack_delVariable, List.mem_cons]
      · by_cases hma : m = a
        · subst hma
          simp [hm, varStack_delVariable]
        · simp [hm, hma, varStack_delVariable, List.mem_cons]

theorem varStack_callStack_irrelevant (ctx : RuntimeContext)
    (cs : List FunctionDefinition) (m : String) :
    varStack { ctx with callStack := cs } m = varStack ctx m := rfl

theorem exitFunction_varStack (ctx : RuntimeContext) (fdef : FunctionDefinition)
    (rest : List FunctionDefinition) (h : ctx.callStack = fdef :: rest)
    (hnd : (fdef.autos ++ fdef.params).Nodup) (m : String) :
    varStack ctx.exitFunction m =
      if m ∈ fdef.autos ++ fdef.params then (varStack ctx m).tail
      else varStack ctx m := by
  rcases List.nodup_append.mp hnd with ⟨hna, hnp, hdisj⟩
  unfold RuntimeContext.exitFunction
  rw [h]
  simp only
  rw [varStack_foldl_del _ _ _ hnp, varStack_foldl_del _ _ _ hna,
    varStack_callStack_irrelevant]
  by_cases hma : m ∈ fdef.autos
  · have hmp : m ∉ fdef.params := fun hp => hdisj hma hp
    simp [hma, hmp, List.mem_append]
  · by_cases hmp : m ∈ fdef.params
    · simp [hma, hmp, List.mem_append]
    · simp [hma, hmp, List.mem_append]

/-! Sequencing facts about statement lists and the command loop. -/

theorem evalStmts_append (fuel : Nat) (pre : List Stmt) (s s1 : InterpState)
    (hpre : evalStmts fuel s pre = some (.val 0, s1)) (post : List Stmt) :
    evalStmts fuel s (pre ++ post) = evalStmts fuel s1 post := by
  induction pre generalizing s with
  | nil =>
      simp only [evalStmts, Option.some.injEq, Prod.mk.injEq] at hpre
      rcases hpre with ⟨-, rfl⟩
      simp
  | cons st rest ih =>
      simp only [evalStmts] at hpre
      rcases bindVal_some hpre with ⟨v, s2, hst, h2⟩ | ⟨hst, hnv⟩
      · simp only [List.cons_append, evalStmts, hst, bindVal]
        exact ih s2 h2
      · exact absurd rfl (hnv 0)

theorem evalStmts_cons_err (fuel : Nat) (s : InterpState) (st : Stmt)
    (rest : List Stmt) (m : String) (s2 : InterpState)
    (h : evalStmt fuel s st = some (.err m, s2)) :
    evalStmts fuel s (st :: rest) = some (.err m, s2) := by
  simp only [evalStmts, h, bindVal]

theorem runCommands_err_continues (fuel : Nat) (s : InterpState) (ss : List Stmt)
    (rest : List Command) (errs : List String) (m : String) (s1 : InterpState)
    (h : evalStmts fuel s ss = some (.err m, s1)) :
    runCommands fuel s (.cstmts ss :: rest) errs =
      runCommands fuel s1 rest (errs ++ [m]) := by
  simp only [runCommands, h]

/-! The compound-assignment tree evaluates by reading x first. -/

theorem compound_eval_eq_code_order (fuel : Nat) (s : InterpState) (x : String)
    (op : ArithOp) (e : Expr) :
    evalExpr fuel s (compoundAssign x op e) = evalCompoundCodeOrder fuel s x op e := by
  unfold compoundAssign evalCompoundCodeOrder
  rcases hg : s.ctx.getVariable x with _ | xv
  · simp [evalExpr, hg, bindVal]
  · rcases he : evalExpr fuel s e with _ | ⟨oe, se⟩
    · simp [evalExpr, hg, he, bindVal]
    · cases oe with
      | val v =>
          rcases hap : arithApply se.ctx xv v op with r | _ | _ | _ | r | mm | _ <;>
            simp [evalExpr, hg, he, hap, bindVal]
      | brk => simp [evalExpr, hg, he, bindVal]
      | cont => simp [evalExpr, hg, he, bindVal]
      | halt => simp [evalExpr, hg, he, bindVal]
      | ret v => simp [evalExpr, hg, he, bindVal]
      | err m => simp [evalExpr, hg, he, bindVal]
      | ub => simp [evalExpr, hg, he, bindVal]


/-! The claims. -/

/-- C1: the spec states that reading Var(x) yields the top of the stack of x
when x has a binding and 0 when the stack of x is empty or absent, in
particular after a call popped all bindings of x. The code satisfies the
absent case (getVariable returns 0 before the call below) and the non-empty
case, but after define f(a) { return a } and a call f(1), delVariable has
left the entry of a in the map with an empty stack, and getVariable then
calls std::stack::top() on that empty stack — undefined behaviour, modelled
as ub — instead of yielding 0. -/
theorem var_read_after_unwind_hits_empty_stack :
    sC1.ctx.getVariable "a" = some 0 ∧
    evalStmts 9 sC1 [.exprStmt (.call "f" [.const 1])] = some (.val 0, sC1after) ∧
    lookupA sC1after.ctx.vars "a" = some [] ∧
    sC1after.ctx.getVariable "a" = none ∧
    evalExpr 9 sC1after (.var "a") = some (.ub, sC1after) := by
  refine ⟨?_, ?_, ?_, ?_, ?_⟩
  · simp [sC1, RuntimeContext.getVariable, lookupA]
  · simp [evalStmts, evalStmt, evalExpr, evalArgs, bindVal, bindValA, consArg, argsThen,
      callReturn, callOutcome, whileStep, Expr.shouldDisplayResult,
      RuntimeContext.getFunctionDefinition, RuntimeContext.getVariable,
      RuntimeContext.enterFunction, RuntimeContext.exitFunction,
      RuntimeContext.addVariable, RuntimeContext.delVariable, pushParams,
      lookupA, updateA, sC1, fdefC1, sC1after]
  · simp [sC1after, lookupA]
  · simp [sC1after, RuntimeContext.getVariable, lookupA]
  · simp [evalExpr, sC1after, RuntimeContext.getVariable, lookupA]

/-- C8: the tracker invariant. Parsing -1 reduces NUMBER first (the new
ConstantExpression is pushed), then expression : MINUS expression, whose
action allocates the MinusExpression without any MemoryStack operation: the
adopted child (node 0) stays tracked while the produced fragment (node 1) is
never tracked — the invariant the claim states would give exactly [1], as the
NOT production does maintain for its own reduction. -/
theorem uminus_reduction_breaks_tracker :
    (reduceUnaryMinus (reduceNumber ⟨[]⟩ 0) 1).ptrs = [0] ∧
    (reduceUnaryMinus (reduceNumber ⟨[]⟩ 0) 1).ptrs ≠
      ((reduceNumber ⟨[]⟩ 0).popAndPush 1 1).ptrs ∧
    1 ∉ (reduceUnaryMinus (reduceNumber ⟨[]⟩ 0) 1).ptrs ∧
    (reduceNot (reduceNumber ⟨[]⟩ 0) 1).ptrs = [1] := by
  refine ⟨rfl, by decide, by decide, rfl⟩


/-- C3: over a context whose stored function bodies all passed the semantic
checker, a top-level statement line that passed the checker (no function,
while counter 0) never surfaces Break, Continue or Return: every Break and
Continue is caught by its innermost While, every Return by its innermost
call, and only a value, a runtime error or Halt can reach the top level. -/
theorem checked_command_surfaces_no_transfer :
    ∀ (fuel : Nat) (s : InterpState) (ss : List Stmt) (o : Outcome) (s1 : InterpState),
      WFst s → checkStmts false 0 ss = true → evalStmts fuel s ss = some (o, s1) →
      o ≠ .brk ∧ o ≠ .cont ∧ ∀ v, o ≠ .ret v := by
  intro fuel s ss o s1 w ck h
  have hOK := evalStmts_ck fuel s ss o s1 false 0 w ck h
  refine ⟨?_, ?_, ?_⟩
  · intro hb
    exact absurd (hOK.1 hb) (by omega)
  · intro hc
    exact absurd (hOK.2.1 hc) (by omega)
  · intro v hv
    exact absurd (hOK.2.2 v hv) (by simp)

/-- C3 witness: the checked command 1 evaluates at top level, over the empty
(vacuously well-formed) context, to a printed value and no transfer. -/
theorem checked_command_surfaces_no_transfer_witness :
    evalStmts 2 sEmpty [.exprStmt (.const 1)] = some (.val 0, sOne) ∧
    Outcome.val 0 ≠ .brk ∧ Outcome.val 0 ≠ .cont ∧ ∀ v, Outcome.val 0 ≠ .ret v := by
  have heval : evalStmts 2 sEmpty [.exprStmt (.const 1)] = some (.val 0, sOne) := by
    simp [evalStmts, evalStmt, evalExpr, bindVal, Expr.shouldDisplayResult, sEmpty, sOne]
  refine ⟨heval, ?_⟩
  exact checked_command_surfaces_no_transfer 2 sEmpty [.exprStmt (.const 1)] (.val 0) sOne
    (by intro f fd hl; simp [sEmpty, lookupA] at hl) (by decide) heval

/-- C6: with both operands of a division evaluated to values, the result is a
runtime error exactly when the right operand is 0 and the quotient otherwise;
for Mod, a runtime error exactly when the right operand is 0 and
lhs - floor(lhs / rhs) * rhs otherwise. -/
theorem div_mod_zero_checks :
    ∀ (fuel : Nat) (s : InterpState) (l r : Expr) (lv rv : ℚ) (s1 s2 : InterpState),
      evalExpr fuel s l = some (.val lv, s1) →
      evalExpr fuel s1 r = some (.val rv, s2) →
      evalExpr fuel s (.arith l r .div) =
        some (if rv = 0 then (.err (s2.ctx.errorMessage "division by zero"), s2)
              else (.val (lv / rv), s2)) ∧
      evalExpr fuel s (.arith l r .mod) =
        some (if rv = 0 then (.err (s2.ctx.errorMessage "modulo zero"), s2)
              else (.val (lv - (Rat.floor (lv / rv) : ℚ) * rv), s2)) := by
  intro fuel s l r lv rv s1 s2 hl hr
  constructor
  · simp only [evalExpr, hl, hr, bindVal, arithApply]
    by_cases h0 : rv = 0 <;> simp [h0]
  · simp only [evalExpr, hl, hr, bindVal, arithApply]
    by_cases h0 : rv = 0 <;> simp [h0]

/-- C6 witness: 1 / 0 raises division by zero against the empty state and
5 mod 0 raises modulo zero. -/
theorem div_mod_zero_checks_witness :
    evalExpr 0 sEmpty (.arith (.const 1) (.const 0) .div) =
      some (.err "runtime error in function (main): division by zero.", sEmpty) ∧
    evalExpr 0 sEmpty (.arith (.const 5) (.const 0) .mod) =
      some (.err "runtime error in function (main): modulo zero.", sEmpty) := by
  constructor
  · have h := (div_mod_zero_checks 0 sEmpty (.const 1) (.const 0) 1 0 sEmpty sEmpty
      (by simp [evalExpr]) (by simp [evalExpr])).1
    simpa [sEmpty, RuntimeContext.errorMessage, RuntimeContext.currentFunction] using h
  · have h := (div_mod_zero_checks 0 sEmpty (.const 5) (.const 0) 5 0 sEmpty sEmpty
      (by simp [evalExpr]) (by simp [evalExpr])).2
    simpa [sEmpty, RuntimeContext.errorMessage, RuntimeContext.currentFunction] using h

/-- C7: And and Or evaluate both operands — the end state is the state after
the right operand even when the left alone decides the value — and yield 1
exactly when the operands, each compared with 0, combine to true. -/
theorem and_or_evaluate_both_operands :
    ∀ (fuel : Nat) (s : InterpState) (l r : Expr) (lv rv : ℚ) (s1 s2 : InterpState),
      evalExpr fuel s l = some (.val lv, s1) →
      evalExpr fuel s1 r = some (.val rv, s2) →
      evalExpr fuel s (.cmp l r .land) =
        some (.val (if lv ≠ 0 ∧ rv ≠ 0 then 1 else 0), s2) ∧
      evalExpr fuel s (.cmp l r .lor) =
        some (.val (if lv ≠ 0 ∨ rv ≠ 0 then 1 else 0), s2) := by
  intro fuel s l r lv rv s1 s2 hl hr
  constructor <;> simp only [evalExpr, hl, hr, bindVal, cmpApply]

/-- C7 witness: in 0 && (y = 7) the left operand already decides the value 0,
yet the assignment in the right operand still executes and leaves y bound. -/
theorem and_or_evaluate_both_operands_witness :
    evalExpr 0 sEmpty (.cmp (.const 0) (.assign "y" (.const 7)) .land) =
      some (.val 0, sY7) ∧
    sY7.ctx.getVariable "y" = some 7 := by
  constructor
  · have h := (and_or_evaluate_both_operands 0 sEmpty (.const 0)
      (.assign "y" (.const 7)) 0 7 sEmpty sY7
      (by simp [evalExpr])
      (by simp [evalExpr, bindVal, RuntimeContext.setVariable, updateA, sEmpty, sY7])).1
    simpa using h
  · simp [sY7, RuntimeContext.getVariable, lookupA]

/-- C9: the exponent of Pow is clamped to a non-negative integer,
pow(lhs, max(0, floor(rhs))); in particular 2 ^ -3 is 1 and 2 ^ 2.9 is 4. -/
theorem pow_exponent_clamped :
    (∀ (fuel : Nat) (s : InterpState) (l r : Expr) (lv rv : ℚ) (s1 s2 : InterpState),
        evalExpr fuel s l = some (.val lv, s1) →
        evalExpr fuel s1 r = some (.val rv, s2) →
        evalExpr fuel s (.arith l r .pow) =
          some (.val (lv ^ (max 0 (Rat.floor rv)).toNat), s2)) ∧
    evalExpr 0 sEmpty (.arith (.const 2) (.const (-3)) .pow) =
      some (.val 1, sEmpty) ∧
    evalExpr 0 sEmpty (.arith (.const 2) (.const 2.9) .pow) =
      some (.val 4, sEmpty) := by
  refine ⟨?_, ?_, ?_⟩
  · intro fuel s l r lv rv s1 s2 hl hr
    simp only [evalExpr, hl, hr, bindVal, arithApply]
  · simp [evalExpr, bindVal, arithApply]
    norm_num [Rat.floor]
  · simp [evalExpr, bindVal, arithApply]
    norm_num [Rat.floor]
    decide


/-- C2: the call unwind. First, a completed evaluation that is not undefined
behaviour always restores the call stack, so its depth equals the number of
concurrently active calls. Second, whenever a call body starts (lookup and
arity check passed, arguments evaluated, frame entered) and completes with
any outcome — fall-through, Return, a runtime error, Halt, Break or Continue
— the call performs exitFunction on the resulting state exactly once before
delivering its outcome. Third, exitFunction pops the call stack once and pops
exactly one value from the stack of each auto and each parameter (names
pairwise distinct, as the checker guarantees), leaving every other name
untouched. -/
theorem call_unwinds_on_every_exit :
    (∀ (fuel : Nat) (s : InterpState) (e : Expr) (o : Outcome) (s1 : InterpState),
        evalExpr fuel s e = some (o, s1) → o ≠ .ub →
        s1.ctx.callStack = s.ctx.callStack) ∧
    (∀ (fuel : Nat) (s : InterpState) (f : String) (args : List Expr)
        (fdef : FunctionDefinition) (vals : List ℚ) (s1 : InterpState) (o : Outcome)
        (sB : InterpState),
        s.ctx.getFunctionDefinition f = some fdef →
        fdef.params.length = args.length →
        evalArgs (fuel + 1) s args = some (.vals vals s1) →
        evalStmts fuel { s1 with ctx := s1.ctx.enterFunction fdef vals } fdef.body =
          some (o, sB) →
        o ≠ .ub →
        evalExpr (fuel + 1) s (.call f args) =
          some (callOutcome o, { sB with ctx := sB.ctx.exitFunction })) ∧
    (∀ (ctx : RuntimeContext) (fdef : FunctionDefinition)
        (rest : List FunctionDefinition),
        ctx.callStack = fdef :: rest → (fdef.autos ++ fdef.params).Nodup →
        ctx.exitFunction.callStack = rest ∧
        ∀ m, varStack ctx.exitFunction m =
          if m ∈ fdef.autos ++ fdef.params then (varStack ctx m).tail
          else varStack ctx m) := by
  refine ⟨?_, ?_, ?_⟩
  · intro fuel s e o s1 h hu
    exact (evalExpr_inv fuel s e o s1 h).2 hu
  · intro fuel s f args fdef vals s1 o sB hf ha hargs hbody hu
    have hne : ¬ fdef.params.length ≠ args.length := fun hc => hc ha
    simp only [evalExpr, hf, if_neg hne, hargs, argsThen, hbody]
    cases o <;> first | rfl | exact absurd rfl hu
  · intro ctx fdef rest hcs hnd
    exact ⟨exitFunction_callStack ctx fdef rest hcs,
      fun m => exitFunction_varStack ctx fdef rest hcs hnd m⟩

/-- C2 witness: calling g(7) from sC2 runs the body to Return 7 in sC2mid and
delivers 7 after exitFunction; that unwind empties the stacks of the
parameter p and the auto b, pops the call stack, and leaves the outer x. -/
theorem call_unwinds_on_every_exit_witness :
    evalExpr 4 sC2 (.call "g" [.const 7]) =
      some (.val 7, { sC2mid with ctx := sC2mid.ctx.exitFunction }) ∧
    sC2mid.ctx.exitFunction.callStack = [] ∧
    varStack sC2mid.ctx.exitFunction "p" = [] ∧
    varStack sC2mid.ctx.exitFunction "b" = [] ∧
    varStack sC2mid.ctx.exitFunction "x" = [5] := by
  have h2 := call_unwinds_on_every_exit.2.1 3 sC2 "g" [.const 7] fdefC2 [7] sC2 (.ret 7)
    sC2mid
    (by simp [sC2, fdefC2, RuntimeContext.getFunctionDefinition, lookupA])
    (by simp [fdefC2])
    (by simp [evalArgs, evalExpr, bindValA, consArg])
    (by simp [evalStmts, evalStmt, evalExpr, bindVal, sC2, sC2mid, fdefC2,
      RuntimeContext.enterFunction, RuntimeContext.addVariable,
      RuntimeContext.getVariable, pushParams, lookupA, updateA])
    (by simp)
  have h3 := call_unwinds_on_every_exit.2.2 sC2mid.ctx fdefC2 []
    (by simp [sC2mid]) (by decide)
  refine ⟨by simpa [callOutcome] using h2, h3.1, ?_, ?_, ?_⟩
  · have := h3.2 "p"
    simpa [fdefC2, sC2mid, varStack, lookupA] using this
  · have := h3.2 "b"
    simpa [fdefC2, sC2mid, varStack, lookupA] using this
  · have := h3.2 "x"
    simpa [fdefC2, sC2mid, varStack, lookupA] using this

/-- C4 counterexample: take e to be the assignment x = 10, in the empty
state. The code reads x (0, before the assignment), then evaluates e, then
combines and stores: x += (x = 10) yields 10. The order the claim states —
evaluate e first, then read x — yields 20. The two runs differ, so the
observable semantics do not coincide with the stated order. -/
theorem compound_spec_order_counterexample :
    evalExpr 0 sEmpty (compoundAssign "x" .plus (.assign "x" (.const 10))) =
      some (.val 10, sX10) ∧
    evalCompoundSpecOrder 0 sEmpty "x" .plus (.assign "x" (.const 10)) =
      some (.val 20, sX20) ∧
    evalExpr 0 sEmpty (compoundAssign "x" .plus (.assign "x" (.const 10))) ≠
      evalCompoundSpecOrder 0 sEmpty "x" .plus (.assign "x" (.const 10)) := by
  have h1 : evalExpr 0 sEmpty (compoundAssign "x" .plus (.assign "x" (.const 10))) =
      some (.val 10, sX10) := by
    simp [compoundAssign, evalExpr, bindVal, arithApply, RuntimeContext.getVariable,
      RuntimeContext.setVariable, updateA, lookupA, sEmpty, sX10]
  have h2 : evalCompoundSpecOrder 0 sEmpty "x" .plus (.assign "x" (.const 10)) =
      some (.val 20, sX20) := by
    simp [evalCompoundSpecOrder, evalExpr, bindVal, arithApply, specRead,
      RuntimeContext.getVariable, RuntimeContext.setVariable, updateA, lookupA,
      sEmpty, sX10, sX20]
    norm_num
  refine ⟨h1, h2, ?_⟩
  rw [h1, h2]
  simp [sX10, sX20]

/-- C4 amended: x op= e desugars to x = x op e exactly as the parser builds
the tree, and that tree observably evaluates in the order read x, evaluate e,
combine, store — so a function called inside e influences the combined result
through its side effects on the state e leaves, but not through the already
performed read of x. -/
theorem compound_assignment_desugars_and_reads_x_first :
    (∀ (x : String) (op : ArithOp) (e : Expr),
        compoundAssign x op e = .assign x (.arith (.var x) e op)) ∧
    (∀ (fuel : Nat) (s : InterpState) (x : String) (op : ArithOp) (e : Expr),
        evalExpr fuel s (compoundAssign x op e) =
          evalCompoundCodeOrder fuel s x op e) :=
  ⟨fun _ _ _ => rfl, compound_eval_eq_code_order⟩

/-- C5 counterexample: h takes two parameters and the outer call h(h(1), 2)
passes exactly two arguments, yet evaluating it surfaces the runtime error
message for a wrong number of arguments for h — raised by the nested call
h(1) inside the first argument. The error is therefore not raised only when
the number of arguments of the call differs from the number of parameters. -/
theorem call_arity_error_despite_matching_arity :
    fdefC5.params.length = 2 ∧
    ([Expr.call "h" [.const 1], Expr.const 2] : List Expr).length = 2 ∧
    evalExpr 5 sC5 (.call "h" [.call "h" [.const 1], .const 2]) =
      some (.err
        "runtime error in function (main): wrong number of arguments for function 'h'.",
        sC5) := by
  refine ⟨rfl, rfl, ?_⟩
  simp [evalExpr, evalArgs, bindVal, bindValA, consArg, argsThen,
    RuntimeContext.getFunctionDefinition, lookupA, sC5, fdefC5,
    RuntimeContext.errorMessage, RuntimeContext.currentFunction]

/-- C5 amended: when f is absent the call raises the not-defined error with
the context unchanged (no argument evaluated, no frame entered); when f
exists with a different arity the call raises the wrong-number error, again
with the context unchanged; otherwise the arguments are evaluated — left to
right, in the caller state — and exactly then the frame is entered and the
body runs. The converse directions do not hold, since the same messages can
surface out of a nested call inside an argument. -/
theorem call_error_checks_precede_arguments :
    (∀ (fuel : Nat) (s : InterpState) (f : String) (args : List Expr),
        s.ctx.getFunctionDefinition f = none →
        evalExpr fuel s (.call f args) =
          some (.err (s.ctx.errorMessage ("function '" ++ f ++ "' not defined")), s)) ∧
    (∀ (fuel : Nat) (s : InterpState) (f : String) (args : List Expr)
        (fdef : FunctionDefinition),
        s.ctx.getFunctionDefinition f = some fdef →
        fdef.params.length ≠ args.length →
        evalExpr fuel s (.call f args) =
          some (.err (s.ctx.errorMessage
            ("wrong number of arguments for function '" ++ f ++ "'")), s)) ∧
    (∀ (fuel : Nat) (s : InterpState) (f : String) (args : List Expr)
        (fdef : FunctionDefinition) (vals : List ℚ) (s1 : InterpState),
        s.ctx.getFunctionDefinition f = some fdef →
        fdef.params.length = args.length →
        evalArgs (fuel + 1) s args = some (.vals vals s1) →
        evalExpr (fuel + 1) s (.call f args) =
          callReturn (evalStmts fuel { s1 with ctx := s1.ctx.enterFunction fdef vals }
            fdef.body)) ∧
    (∀ (fuel : Nat) (s : InterpState) (e : Expr) (rest : List Expr),
        evalArgs fuel s (e :: rest) =
          bindValA (evalExpr fuel s e) fun v s1 => consArg v (evalArgs fuel s1 rest)) := by
  refine ⟨?_, ?_, ?_, ?_⟩
  · intro fuel s f args hf
    simp [evalExpr, hf]
  · intro fuel s f args fdef hf ha
    simp [evalExpr, hf, if_pos ha]
  · intro fuel s f args fdef vals s1 hf ha hargs
    have hne : ¬ fdef.params.length ≠ args.length := fun hc => hc ha
    simp only [evalExpr, hf, if_neg hne, hargs, argsThen]
  · intro fuel s e rest
    simp [evalArgs]

/-- C5 witness: calling the absent q in the empty state raises the
not-defined error and leaves the state untouched. -/
theorem call_error_checks_precede_arguments_witness :
    evalExpr 0 sEmpty (.call "q" []) =
      some (.err "runtime error in function (main): function 'q' not defined.",
        sEmpty) := by
  have h := call_error_checks_precede_arguments.1 0 sEmpty "q" []
    (by simp [sEmpty, RuntimeContext.getFunctionDefinition, lookupA])
  simpa [sEmpty, RuntimeContext.errorMessage, RuntimeContext.currentFunction] using h

/-- C10: a runtime error partway through a statement line keeps every effect
of the statements already executed — the state (variables and printed
values) reached just before the error is the state the error surfaces with —
skips the remaining statements of the line, and the command loop goes on with
the next command from that very state, after printing the message to the
error stream. -/
theorem runtime_error_keeps_effects_and_skips_rest :
    (∀ (fuel : Nat) (s : InterpState) (pre : List Stmt) (s1 : InterpState),
        evalStmts fuel s pre = some (.val 0, s1) →
        ∀ post, evalStmts fuel s (pre ++ post) = evalStmts fuel s1 post) ∧
    (∀ (fuel : Nat) (s : InterpState) (st : Stmt) (rest : List Stmt) (m : String)
        (s2 : InterpState),
        evalStmt fuel s st = some (.err m, s2) →
        evalStmts fuel s (st :: rest) = some (.err m, s2)) ∧
    (∀ (fuel : Nat) (s : InterpState) (ss : List Stmt) (rest : List Command)
        (errs : List String) (m : String) (s1 : InterpState),
        evalStmts fuel s ss = some (.err m, s1) →
        runCommands fuel s (.cstmts ss :: rest) errs =
          runCommands fuel s1 rest (errs ++ [m])) := by
  refine ⟨?_, ?_, ?_⟩
  · intro fuel s pre s1 hpre post
    exact evalStmts_append fuel pre s s1 hpre post
  · intro fuel s st rest m s2 h
    exact evalStmts_cons_err fuel s st rest m s2 h
  · intro fuel s ss rest errs m s1 h
    exact runCommands_err_continues fuel s ss rest errs m s1 h

/-- C10 witness: the line x = 1; 1/0; 99 writes x, prints nothing for the
assignment, errors on 1/0 and skips 99; the interpreter then runs the next
command x, which prints the persisted 1. -/
theorem runtime_error_keeps_effects_and_skips_rest_witness :
    runCommands 3 sEmpty
      [.cstmts [.exprStmt (.assign "x" (.const 1)),
                .exprStmt (.arith (.const 1) (.const 0) .div),
                .exprStmt (.const 99)],
       .cstmts [.exprStmt (.var "x")]] [] =
      some (sC10end, ["runtime error in function (main): division by zero."]) := by
  have herr : evalStmts 3 sEmpty
      [.exprStmt (.assign "x" (.const 1)),
       .exprStmt (.arith (.const 1) (.const 0) .div),
       .exprStmt (.const 99)] =
      some (.err "runtime error in function (main): division by zero.",
        ⟨⟨[], [("x", [1])], []⟩, []⟩) := by
    simp [evalStmts, evalStmt, evalExpr, bindVal, arithApply, Expr.shouldDisplayResult,
      RuntimeContext.getVariable, RuntimeContext.setVariable, updateA, lookupA,
      RuntimeContext.errorMessage, RuntimeContext.currentFunction, sEmpty]
  rw [runtime_error_keeps_effects_and_skips_rest.2.2 3 sEmpty _ _ [] _ _ herr]
  simp [runCommands, evalStmts, evalStmt, evalExpr, bindVal, Expr.shouldDisplayResult,
    RuntimeContext.getVariable, lookupA, sC10end]

end BcInterp
